import Mathlib

/-!
Shallow embedding of the core of `awsrastools/awsrastools.py` (HEC-RAS project
automation tools): the resource-registry operations on the line-oriented
project file (ID extraction, gap-fill and append ID allocation, ordered
insertion of reference lines, plan-file rewrites) and the fixed-width table
codec (table-boundary detection, positional decoding, value scaling,
re-encoding).

Modelling conventions:
* A text file is a `List Line` where `Line := List Char`; lines produced by
  Python's `readlines` keep their trailing `'\n'`, and the embedding keeps it
  too, since the codec's 8-character chunking reads the raw line including the
  terminator.
* Python numbers parsed from text are modelled as `Nat`/`Int`; floating-point
  field values are modelled as `ℚ` (the decimal numerals occurring in these
  files are exactly representable).  `float(...)` is modelled by a decimal
  numeral parser (optional sign, integer part, optional fractional part);
  exponent forms and `inf`/`nan` are outside the fragment exercised here.
* `int(...)` on a declared table count is modelled by a parser for
  (whitespace-trimmed) unsigned decimal numerals; a declaration whose count
  does not parse makes the Python code raise, modelled by `Option`/`Except`.
* File I/O (reading, writing, `shutil.copyfile`) is outside the embedding;
  each operation is modelled as the pure transformation it applies to the
  file's line sequence, and a Python function that raises before writing is
  modelled as an `Except` value whose `error` case corresponds to the raise
  happening before any write.
* The regex substitutions of `set_num_cores` operate on the whole file
  content, but neither the searched keys nor `\d+` can match across a
  newline, so applying them line-by-line is an exact model.
-/

/-- A line of text, as a list of characters. -/
abbrev Line := List Char

/-- Characters of a string literal. -/
def str (s : String) : Line := s.data

/-- Decimal representation of a natural number, as produced by Python's
`str(n)` / f-string formatting of a nonnegative integer. -/
def decRepr (n : Nat) : Line :=
  if _h : n < 10 then [Nat.digitChar n]
  else decRepr (n / 10) ++ [Nat.digitChar (n % 10)]
decreasing_by exact Nat.div_lt_self (by omega) (by omega)

/-- Numeric value of a string of decimal digits (most significant first). -/
def digitsVal (cs : Line) : Nat :=
  cs.foldl (fun a c => 10 * a + (c.toNat - 48)) 0

/-- Python's `int(s)` restricted to unsigned decimal numerals: succeeds
exactly on a nonempty all-digit string. -/
def parseNat (cs : Line) : Option Nat :=
  if cs ≠ [] ∧ cs.all Char.isDigit then some (digitsVal cs) else none

/-- Whitespace characters stripped by Python's `str.strip()`. -/
def isWS (c : Char) : Bool :=
  c = ' ' || c = '\t' || c = '\n' || c = '\r' || c = '\x0b' || c = '\x0c'

/-- Python's `str.strip()`: remove leading and trailing whitespace. -/
def trimChars (cs : Line) : Line :=
  ((cs.dropWhile isWS).reverse.dropWhile isWS).reverse

/-- Python's `str.split('=')`: split on every occurrence of `'='`. -/
def splitEq : Line → List Line
  | [] => [[]]
  | c :: rest =>
    if c = '=' then [] :: splitEq rest
    else
      match splitEq rest with
      | s :: ss => (c :: s) :: ss
      | [] => [[c]]

/-- Python's substring containment test `key in line`. -/
def containsSub (key : Line) : Line → Bool
  | [] => key.isPrefixOf []
  | c :: rest => key.isPrefixOf (c :: rest) || containsSub key rest

/-- Index of the first line (counting from `i`) satisfying `p`. -/
def firstIdxFrom (p : Line → Bool) : List Line → Nat → Option Nat
  | [], _ => none
  | l :: rest, i => if p l then some i else firstIdxFrom p rest (i + 1)

/-- Index of the last line (counting from `i`) satisfying `p`. -/
def lastIdxFrom (p : Line → Bool) : List Line → Nat → Option Nat
  | [], _ => none
  | l :: rest, i =>
    match lastIdxFrom p rest (i + 1) with
    | some j => some j
    | none => if p l then some i else none

/-- Python's `list.insert(i, x)`: insert before position `i`, clamping to an
append when `i` exceeds the length. -/
def pyInsert (l : List Line) (i : Nat) (x : Line) : List Line :=
  l.take i ++ x :: l.drop i

/-- Python's `f"{n:02d}"`: decimal representation zero-padded to width 2. -/
def pad2 (n : Nat) : Line :=
  let s := decRepr n
  if s.length < 2 then '0' :: s else s

/-- Case-insensitive prefix test, modelling a `re.IGNORECASE` literal match
anchored at the start. -/
def ciPre : Line → Line → Bool
  | [], _ => true
  | _ :: _, [] => false
  | k :: ks, c :: cs => (k.toLower == c.toLower) && ciPre ks cs

/-- Model of `re.match(r'^KEY(\d+)', line.strip(), re.IGNORECASE)`: match the
literal key case-insensitively at the start of the stripped line, then capture
the following run of digits (at least one). -/
def matchNumCI (key : Line) (l : Line) : Option Nat :=
  let t := trimChars l
  if ciPre key t then
    let ds := (t.drop key.length).takeWhile Char.isDigit
    if ds = [] then none else some (digitsVal ds)
  else none

/-! ### Fixed-width table codec (`identify_tables`, `parse_fixed_width_table`,
`scale_flow_hydrograph`, `write_table_to_file`) -/

/-- The five table-declaring key prefixes recognised by `identify_tables`. -/
def tableKeys : List Line :=
  [str "Flow Hydrograph=", str "Gate Openings=", str "Stage Hydrograph=",
   str "Uniform Lateral Inflow=", str "Lateral Inflow Hydrograph="]

/-- Test from `identify_tables`: `any(table_type in line for ...)`. -/
def isTableLine (l : Line) : Bool := tableKeys.any (fun k => containsSub k l)

/-- The name and declared count read off a table-declaring line:
`line.strip().split('=')[0] + '='` and `int(line.strip().split('=')[1])`. -/
def parseDecl (l : Line) : Option (Line × Nat) :=
  let t := trimChars l
  let segs := splitEq t
  (parseNat (trimChars (segs.getD 1 []))).map (fun c => (segs.getD 0 [] ++ ['='], c))

/-- Loop body of `identify_tables`: walk the lines with the current open table
`cur = (name, startLine, declaredCount)` and the accumulated closed tables.  A
new declaration at index `i` closes the open table at end line `i - 1`; the
final open table is closed at `start + (count + 9) / 10`. -/
def identGo : List Line → Nat → Option (Line × Nat × Nat) → List (Line × Nat × Nat) →
    Option (List (Line × Nat × Nat))
  | [], _, cur, acc =>
    some (match cur with
          | none => acc
          | some (nm, s, cnt) => acc ++ [(nm, s, s + (cnt + 9) / 10)])
  | l :: rest, i, cur, acc =>
    if isTableLine l then
      match parseDecl l with
      | none => none
      | some (nm, cnt) =>
        identGo rest (i + 1) (some (nm, i + 1, cnt))
          (match cur with
           | none => acc
           | some (nm₀, s₀, _) => acc ++ [(nm₀, s₀, i - 1)])
    else identGo rest (i + 1) cur acc

/-- `identify_tables(lines)`: the list of `(table_name, start_line, end_line)`
triples; `none` models the `ValueError` raised on a malformed declared count. -/
def identify_tables (lines : List Line) : Option (List (Line × Nat × Nat)) :=
  identGo lines 0 none []

/-- The fixed 8-character fields of a line: `line[i:i+8]` for
`i in range(0, len(line), 8)`. -/
def chunk8 (cs : Line) : List Line :=
  if _h : cs = [] then [] else cs.take 8 :: chunk8 (cs.drop 8)
termination_by cs.length
decreasing_by
  simp only [List.length_drop]
  have : cs.length ≠ 0 := fun h0 => _h (List.eq_nil_of_length_eq_zero h0)
  omega

/-- Unsigned decimal numeral (integer part, optional `'.'` and fractional
part) as a rational; the numeric forms occurring in these fixed-width tables. -/
def parseUnsigned (cs : Line) : Option ℚ :=
  let ip := cs.takeWhile Char.isDigit
  let rest := cs.dropWhile Char.isDigit
  match rest with
  | [] => if ip = [] then none else some (digitsVal ip)
  | c :: fr =>
    if c = '.' ∧ fr.all Char.isDigit ∧ (ip ≠ [] ∨ fr ≠ []) then
      some ((digitsVal ip : ℚ) + (digitsVal fr : ℚ) / (10 : ℚ) ^ fr.length)
    else none

/-- Python's `float(s)` on the decimal numerals used in these tables
(optional sign, digits, optional fractional part); `none` models the
`ValueError` that makes `parse_fixed_width_table` drop the field. -/
def parseDecimal : Line → Option ℚ
  | [] => none
  | c :: rest =>
    if c = '-' then (parseUnsigned rest).map Neg.neg
    else if c = '+' then parseUnsigned rest
    else parseUnsigned (c :: rest)

/-- Per-line decoding of `parse_fixed_width_table`: split into 8-character
fields, strip each, parse as a float, silently dropping fields that fail to
parse.  (The `len(value) > 8` branch of the source is unreachable: each field
is a slice of at most 8 characters.) -/
def parseLine (l : Line) : List ℚ :=
  (chunk8 l).filterMap (fun c =>
    let t := trimChars c
    if t = [] then none else parseDecimal t)

/-- `parse_fixed_width_table(lines, start, end)`: decode the half-open line
range `lines[start:end]`, concatenating the values of each line in order. -/
def parse_fixed_width_table (lines : List Line) (s e : Nat) : List ℚ :=
  ((lines.take e).drop s).flatMap parseLine

/-- Round-half-to-even, the rounding used by `pandas.Series.round()` (IEEE
float rounding of `.5` cases). -/
def roundHalfEven (q : ℚ) : ℤ :=
  let f := ⌊q⌋
  let r := q - (f : ℚ)
  if r < 1/2 then f
  else if 1/2 < r then f + 1
  else if f % 2 = 0 then f else f + 1

/-- The value transform of `scale_flow_hydrograph`:
`(values * scale_factor).round().astype(int)`. -/
def scaleValues (vals : List ℚ) (factor : ℚ) : List ℤ :=
  vals.map (fun v => roundHalfEven (v * factor))

/-- The key of the flow hydrograph table. -/
def flowKey : Line := str "Flow Hydrograph="

/-- Python dict assignment `tables[key] = v` for a key already present. -/
def setKey (tables : List (Line × List ℚ)) (k : Line) (v : List ℚ) :
    List (Line × List ℚ) :=
  tables.map (fun p => if p.1 = k then (k, v) else p)

/-- `scale_flow_hydrograph(tables, scale_factor)`: if the dictionary of
extracted tables has no `"Flow Hydrograph="` key, return it unchanged with
`None` as the original values; otherwise replace that table's values by the
scaled, rounded integers and return the pre-scale values. -/
def scale_flow_hydrograph (tables : List (Line × List ℚ)) (factor : ℚ) :
    List (Line × List ℚ) × Option (List ℚ) :=
  match tables.lookup flowKey with
  | none => (tables, none)
  | some vals =>
    (setKey tables flowKey ((scaleValues vals factor).map (fun z => (z : ℚ))),
     some vals)

/-- Decimal representation of an integer, as formatted by Python. -/
def intRepr (v : ℤ) : Line :=
  if v < 0 then '-' :: decRepr v.natAbs else decRepr v.toNat

/-- Python's `f'{value:8d}'`: the integer right-justified in a field of width
8 (wider if the representation itself is longer). -/
def formatInt8 (v : ℤ) : Line :=
  List.replicate (8 - (intRepr v).length) ' ' ++ intRepr v

/-- Groups of 10 values: `df['Value'].iloc[i:i+10]` for
`i in range(0, len(df), 10)`. -/
def group10 (vs : List ℤ) : List (List ℤ) :=
  if _h : vs = [] then [] else vs.take 10 :: group10 (vs.drop 10)
termination_by vs.length
decreasing_by
  simp only [List.length_drop]
  have : vs.length ≠ 0 := fun h0 => _h (List.eq_nil_of_length_eq_zero h0)
  omega

/-- One encoded row of `write_table_to_file`: up to 10 values, each formatted
in an 8-character field, concatenated, newline-terminated. -/
def rowLine (g : List ℤ) : Line := (g.map formatInt8).flatten ++ ['\n']

/-- `write_table_to_file(file_path, table_name, df, start_line)` as the pure
transformation of the file's lines: replace the slice
`lines[start_line : start_line + #rows]` by the re-encoded rows.  (The
`table_name` argument is unused in the source as well.) -/
def write_table_to_file (lines : List Line) (_tname : Line) (df : List ℤ)
    (start : Nat) : List Line :=
  let fr := (group10 df).map rowLine
  lines.take start ++ fr ++ lines.drop (start + fr.length)

/-! ### Resource registry -/

/-- `get_geom_entries(project_file)`: the `geom_number` column, i.e. for every
line starting with `"Geom File="`, the text after the first `'='`, stripped,
with its first character (the type letter) removed. -/
def get_geom_entries (lines : List Line) : List Line :=
  lines.filterMap (fun l =>
    if (str "Geom File=").isPrefixOf l then
      some ((trimChars ((splitEq l).getD 1 [])).drop 1)
    else none)

/-- `apply_geometry_to_plan(plan_file, geometry_number, project_file)`:
validate that `geometry_number` occurs among the project's geometry entries
(an empty registry makes pandas raise a `KeyError`; an absent number raises a
`ValueError`), then rewrite every plan line starting with `"Geom File=g"`. -/
def apply_geometry_to_plan (planLines : List Line) (g : Line)
    (projLines : List Line) : Except Line (List Line) :=
  let entries := get_geom_entries projLines
  if entries.isEmpty then .error (str "KeyError: geom_number")
  else if g ∈ entries then
    .ok (planLines.map (fun l =>
      if (str "Geom File=g").isPrefixOf l then str "Geom File=g" ++ g ++ ['\n']
      else l))
  else .error (str "Geometry number not found in project file.")

/-- `update_geompre_flags(file_path, run_htab_value, use_ib_tables_value)`:
both flags are validated against `{0, -1}` before the file is read or
written; on success the two flag lines are rewritten and all others pass
through. -/
def update_geompre_flags (lines : List Line) (rh uib : ℤ) :
    Except Line (List Line) :=
  if ¬(rh = -1 ∨ rh = 0) then
    .error (str "Invalid value for Run HTab. Expected 0 or -1.")
  else if ¬(uib = -1 ∨ uib = 0) then
    .error (str "Invalid value for UNET Use Existing IB Tables. Expected 0 or -1.")
  else
    .ok (lines.map (fun l =>
      if (str "Run HTab=").isPrefixOf (trimChars l) then
        str "Run HTab= " ++ intRepr rh ++ str " \n"
      else if (str "UNET Use Existing IB Tables=").isPrefixOf (trimChars l) then
        str "UNET Use Existing IB Tables= " ++ intRepr uib ++ str " \n"
      else l))

/-- Loop of `get_next_available_number`: starting from `k`, advance while the
candidate is taken.  Erasing the hit before recursing leaves membership of
every larger candidate unchanged, so this models the Python `while next_num in
existing_set` loop. -/
def nextFree (s : List Nat) (k : Nat) : Nat :=
  if h : k ∈ s then nextFree (s.erase k) (k + 1) else k
termination_by s.length
decreasing_by
  have h1 := List.length_erase_of_mem h
  have h2 : s.length ≠ 0 := by
    intro h0
    rw [List.eq_nil_of_length_eq_zero h0] at h
    simp at h
  omega

/-- The numbers in `set(int(num[1:]) for num in existing_numbers if
num[1:].isdigit())`: drop each entry's first character and keep the
all-digit remainders (malformed entries are ignored, not errors). -/
def idNumsOf (ss : List Line) : List Nat :=
  ss.filterMap (fun num =>
    if (num.drop 1) ≠ [] ∧ (num.drop 1).all Char.isDigit
    then some (digitsVal (num.drop 1)) else none)

/-- `get_next_available_number(existing_numbers)`: drop each entry's first
character, keep the all-digit remainders, and return the first number from 1
upward not among them, formatted as `f"{n:02d}"`. -/
def get_next_available_number (ss : List Line) : Line :=
  pad2 (nextFree (idNumsOf ss) 1)

/-- Scan of `copy_geometry_from_template` over the sorted existing numbers:
`next_number = 1`, bump it past each consecutive hit, stop at the first gap. -/
def scanNext : List Nat → Nat → Nat
  | [], k => k
  | m :: rest, k => if m = k then scanNext rest (k + 1) else k

/-- The geometry reference pattern `^Geom File=g(\d+)` (IGNORECASE),
lower-cased for the case-insensitive match. -/
def geomKeyCI : Line := str "geom file=g"

/-- The unsteady reference pattern `^Unsteady File=u(\d+)` (IGNORECASE). -/
def unstKeyCI : Line := str "unsteady file=u"

/-- Existing geometry numbers of the project lines, in document order. -/
def geomNumbersOf (lines : List Line) : List Nat :=
  lines.filterMap (matchNumCI geomKeyCI)

/-- Gap-fill allocation of `copy_geometry_from_template`: sort the existing
numbers and walk them from 1. -/
def geomNext (lines : List Line) : Nat :=
  let ex := geomNumbersOf lines
  if ex = [] then 1 else scanNext (List.insertionSort (· ≤ ·) ex) 1

/-- The header keys of the geometry-insertion fallback
(`^(Proj Title|Current Plan|Default Exp/Contr|English Units)`, IGNORECASE). -/
def headerKeysCI : List Line :=
  [str "proj title", str "current plan", str "default exp/contr",
   str "english units"]

/-- Header-line test of the geometry-insertion fallback. -/
def isHeaderLine (l : Line) : Bool :=
  headerKeysCI.any (fun k => ciPre k (trimChars l))

/-- The new project-file reference line `f"Geom File=g{NN}\n"`. -/
def geomLine (n : Nat) : Line := str "Geom File=g" ++ pad2 n ++ ['\n']

/-- Insertion scan of `copy_geometry_from_template`: the first line whose
geometry number is not less than the new number. -/
def geomInsertIdx (lines : List Line) (n : Nat) : Option Nat :=
  firstIdxFrom (fun l =>
    match matchNumCI geomKeyCI l with
    | some m => decide (n ≤ m)
    | none => false) lines 0

/-- Index of the last header line, for the geometry-insertion fallback. -/
def lastHeaderIdx (lines : List Line) : Option Nat :=
  lastIdxFrom isHeaderLine lines 0

/-- The project-file update performed by `copy_geometry_from_template` (the
physical file copies are I/O outside the embedding): allocate the gap-fill
number, then insert the new reference line before the first same-kind line
with a number `≥` the new one; if there is none, insert at
`last_header_index + 2` when a header line exists, else at the top.  Returns
the updated lines and the allocated number. -/
def copy_geometry_update (lines : List Line) : List Line × Nat :=
  let n := geomNext lines
  let newLine := geomLine n
  (match geomInsertIdx lines n with
   | some i => pyInsert lines i newLine
   | none =>
     match lastHeaderIdx lines with
     | some h => pyInsert lines (h + 2) newLine
     | none => pyInsert lines 0 newLine, n)

/-- Existing unsteady numbers of the project lines, in document order. -/
def unstNumbersOf (lines : List Line) : List Nat :=
  lines.filterMap (matchNumCI unstKeyCI)

/-- Append allocation of `copy_unsteady_from_template`:
`max(existing_numbers) + 1` or 1 when empty. -/
def unstNext (lines : List Line) : Nat :=
  let ex := unstNumbersOf lines
  if ex = [] then 1 else ex.foldl max 0 + 1

/-- Unsteady reference-line test, for the insertion fallback. -/
def isUnstLine (l : Line) : Bool := (matchNumCI unstKeyCI l).isSome

/-- The new project-file reference line `f"Unsteady File=u{NN}\n"`. -/
def unstLine (n : Nat) : Line := str "Unsteady File=u" ++ pad2 n ++ ['\n']

/-- Insertion scan of `copy_unsteady_from_template`: the first line whose
unsteady number is strictly greater than the new number. -/
def unstInsertIdx (lines : List Line) (n : Nat) : Option Nat :=
  firstIdxFrom (fun l =>
    match matchNumCI unstKeyCI l with
    | some m => decide (n < m)
    | none => false) lines 0

/-- The project-file update performed by `copy_unsteady_from_template`:
allocate `max + 1`, insert before the first same-kind line with a greater
number; if none, insert after the last same-kind line, else append at the end
of the document. -/
def copy_unsteady_update (lines : List Line) : List Line × Nat :=
  let n := unstNext lines
  let newLine := unstLine n
  (match unstInsertIdx lines n with
   | some i => pyInsert lines i newLine
   | none =>
     match lastIdxFrom isUnstLine lines 0 with
     | some j => pyInsert lines (j + 1) newLine
     | none => lines ++ [newLine], n)

/-- The plan reference key searched (case-sensitively) by
`re.findall(r'Plan File=p(\d+)', project_content)`. -/
def planKey : Line := str "Plan File=p"

/-- All non-overlapping occurrences of `key(\d+)` in a text, left to right,
continuing after each match: the model of `re.findall`. -/
def findAllKeyNums (key : Line) : Line → List Nat
  | [] => []
  | c :: rest =>
    if h : key.isPrefixOf (c :: rest) = true ∧
        ((c :: rest).drop key.length).takeWhile Char.isDigit ≠ [] then
      digitsVal (((c :: rest).drop key.length).takeWhile Char.isDigit) ::
        findAllKeyNums key (((c :: rest).drop key.length).dropWhile Char.isDigit)
    else findAllKeyNums key rest
termination_by cs => cs.length
decreasing_by
  · rcases h with ⟨hpre, hds⟩
    have hle : (((c :: rest).drop key.length).dropWhile Char.isDigit).length ≤
        ((c :: rest).drop key.length).length :=
      List.Sublist.length_le (List.dropWhile_sublist Char.isDigit)
    cases key with
    | nil =>
      simp only [List.length_nil, List.drop_zero] at hle hds ⊢
      cases hd : Char.isDigit c with
      | false => rw [List.takeWhile_cons, hd] at hds; simp at hds
      | true =>
        have h2 : ((c :: rest).dropWhile Char.isDigit).length ≤ rest.length := by
          rw [List.dropWhile_cons, hd]
          simpa using List.Sublist.length_le (List.dropWhile_sublist Char.isDigit)
        simp only [List.length_cons]
        omega
    | cons k0 ks =>
      simp only [List.length_drop, List.length_cons] at hle ⊢
      omega
  · simp only [List.length_cons]; omega

/-- The plan numbers found in the project content by
`copy_plan_from_template`. -/
def plan_existing_numbers (content : Line) : List Nat :=
  findAllKeyNums planKey content

/-- Append allocation of `copy_plan_from_template`:
`max(existing_numbers) + 1 if existing_numbers else 1`. -/
def plan_next_number (content : Line) : Nat :=
  let ex := plan_existing_numbers content
  if ex = [] then 1 else ex.foldl max 0 + 1

/-- Core-count key `"UNET D1 Cores= "` of `set_num_cores`. -/
def d1Key : Line := str "UNET D1 Cores= "

/-- Core-count key `"UNET D2 Cores= "` of `set_num_cores`. -/
def d2Key : Line := str "UNET D2 Cores= "

/-- Core-count key `"PS Cores= "` of `set_num_cores`. -/
def psKey : Line := str "PS Cores= "

/-- `re.sub(r'(KEY)\d+', KEY + rep, text)`: replace every non-overlapping
occurrence of the key followed by a digit run, keeping the key and replacing
the digits, continuing the scan after each match. -/
def subAll (key rep : Line) : Line → Line
  | [] => []
  | c :: rest =>
    if h : key.isPrefixOf (c :: rest) = true ∧
        ((c :: rest).drop key.length).takeWhile Char.isDigit ≠ [] then
      key ++ rep ++ subAll key rep (((c :: rest).drop key.length).dropWhile Char.isDigit)
    else c :: subAll key rep rest
termination_by cs => cs.length
decreasing_by
  · rcases h with ⟨hpre, hds⟩
    have hle : (((c :: rest).drop key.length).dropWhile Char.isDigit).length ≤
        ((c :: rest).drop key.length).length :=
      List.Sublist.length_le (List.dropWhile_sublist Char.isDigit)
    cases key with
    | nil =>
      simp only [List.length_nil, List.drop_zero] at hle hds ⊢
      cases hd : Char.isDigit c with
      | false => rw [List.takeWhile_cons, hd] at hds; simp at hds
      | true =>
        have h2 : ((c :: rest).dropWhile Char.isDigit).length ≤ rest.length := by
          rw [List.dropWhile_cons, hd]
          simpa using List.Sublist.length_le (List.dropWhile_sublist Char.isDigit)
        simp only [List.length_cons]
        omega
    | cons k0 ks =>
      simp only [List.length_drop, List.length_cons] at hle ⊢
      omega
  · simp only [List.length_cons]; omega

/-- `re.search(r'(KEY)\d+', text)` followed by reading the matched digits as
an integer: the value at the first occurrence of the key followed by digits. -/
def findKeyDigits (key : Line) : Line → Option Nat
  | [] => none
  | c :: rest =>
    if key.isPrefixOf (c :: rest) = true ∧
        ((c :: rest).drop key.length).takeWhile Char.isDigit ≠ [] then
      some (digitsVal (((c :: rest).drop key.length).takeWhile Char.isDigit))
    else findKeyDigits key rest

/-- First match of `findKeyDigits` across the lines of a file, in order. -/
def findKeyDigitsLines (key : Line) : List Line → Option Nat
  | [] => none
  | l :: rest =>
    match findKeyDigits key l with
    | some v => some v
    | none => findKeyDigitsLines key rest

/-- `set_num_cores(plan_file, num_cores)` as the pure transformation of the
plan file's lines: substitute the D2 core count first, then — if the D2 value
now reads exactly 2 — force D1 and PS to 1, otherwise set them to `num_cores`
as well. -/
def set_num_cores (lines : List Line) (n : Nat) : List Line :=
  let c1 := lines.map (subAll d2Key (decRepr n))
  match findKeyDigitsLines d2Key c1 with
  | some v =>
    if v = 2 then (c1.map (subAll d1Key (str "1"))).map (subAll psKey (str "1"))
    else (c1.map (subAll d1Key (decRepr n))).map (subAll psKey (decRepr n))
  | none => (c1.map (subAll d1Key (decRepr n))).map (subAll psKey (decRepr n))

/-! ### Decidable side conditions used in theorem hypotheses -/

/-- No occurrence of `key` anywhere in `cs` (bounded, decidable check). -/
def noPreB (key cs : Line) : Bool :=
  (List.range (cs.length + 1)).all (fun i => !(key.isPrefixOf (cs.drop i)))

/-- Sufficient decidable condition on a key/base pair guaranteeing that the
key cannot occur in `base ++ ds` for any all-digit suffix `ds`: the key
starts with a non-digit, and at every start position inside `base` some key
character mismatches `base` or falls into the digit region while being a
non-digit. -/
def goodPairB (key base : Line) : Bool :=
  !key.isEmpty && !(key.headD '0').isDigit &&
  (List.range base.length).all (fun i =>
    (List.range key.length).any (fun j =>
      if i + j < base.length then !(key.getD j ' ' == base.getD (i + j) ' ')
      else !(key.getD j ' ').isDigit))

/-- Declaration line of a flow hydrograph table with declared count `c`. -/
def flowDeclLine (c : Nat) : Line := str "Flow Hydrograph= " ++ decRepr c ++ ['\n']

/-- Declaration line of a stage hydrograph table with declared count `c`. -/
def stageDeclLine (c : Nat) : Line := str "Stage Hydrograph= " ++ decRepr c ++ ['\n']

/-- A well-formed geometry reference line `"Geom File=g" ++ ds ++ "\n"`. -/
def geomRefLine (ds : Line) : Line := str "Geom File=g" ++ ds ++ ['\n']

-- THEOREMS

/-! ### Generic helper lemmas -/

theorem init_le_foldl_max (ns : List Nat) (a : Nat) : a ≤ ns.foldl max a := by
  induction ns generalizing a with
  | nil => exact le_refl a
  | cons x xs ih => exact le_trans (le_max_left a x) (ih (max a x))

theorem le_foldl_max (ns : List Nat) (a : Nat) : ∀ m ∈ ns, m ≤ ns.foldl max a := by
  induction ns generalizing a with
  | nil => simp
  | cons x xs ih =>
    intro m hm
    rcases List.mem_cons.1 hm with rfl | hm
    · exact le_trans (le_max_right a m) (init_le_foldl_max xs (max a m))
    · exact ih (max a x) m hm

theorem foldl_max_mem (ns : List Nat) (a : Nat) :
    ns.foldl max a = a ∨ ns.foldl max a ∈ ns := by
  induction ns generalizing a with
  | nil => exact Or.inl rfl
  | cons x xs ih =>
    have hstep : (x :: xs).foldl max a = xs.foldl max (max a x) := rfl
    rcases ih (max a x) with h | h
    · rcases max_choice a x with hm | hm
      · exact Or.inl (by rw [hstep, h, hm])
      · exact Or.inr (by rw [hstep, h, hm]; exact List.mem_cons_self x xs)
    · exact Or.inr (by rw [hstep]; exact List.mem_cons_of_mem x h)

theorem lookup_none_of_key_not_mem (tables : List (Line × List ℚ)) (k : Line)
    (h : k ∉ tables.map Prod.fst) : tables.lookup k = none := by
  induction tables with
  | nil => rfl
  | cons p ps ih =>
    simp only [List.map_cons, List.mem_cons, not_or] at h
    have hb : (k == p.1) = false := by
      simpa using h.1
    simp [List.lookup, hb, ih h.2]

theorem append_next_spec (ex : List Nat) :
    (∀ m ∈ ex, m < (if ex = [] then 1 else ex.foldl max 0 + 1)) ∧
    (ex ≠ [] → (if ex = [] then 1 else ex.foldl max 0 + 1) - 1 ∈ ex) ∧
    (ex = [] → (if ex = [] then 1 else ex.foldl max 0 + 1) = 1) := by
  by_cases hex : ex = []
  · subst hex
    refine ⟨by simp, by simp, by simp⟩
  · rw [if_neg hex]
    refine ⟨?_, ?_, fun h => absurd h hex⟩
    · intro m hm
      exact Nat.lt_succ_of_le (le_foldl_max ex 0 m hm)
    · intro _
      simp only [Nat.add_sub_cancel]
      rcases foldl_max_mem ex 0 with h0 | hmem
      · rcases ex with _ | ⟨x, xs⟩
        · exact absurd rfl hex
        · have hx := le_foldl_max (x :: xs) 0 x (List.mem_cons_self x xs)
          rw [h0] at hx
          have : x = 0 := Nat.le_zero.1 hx
          rw [h0, ← this]
          exact List.mem_cons_self x xs
      · exact hmem

/-- C5: append allocation (used by `copy_unsteady_from_template` and
`copy_plan_from_template`) returns a number strictly greater than every
existing number, exactly one more than some existing number when any exist
(i.e. `max + 1`), and `1` when the collection is empty; in particular for
existing IDs `{1, 3}` it returns `4`, not `2`. -/
theorem append_allocation_rule :
    (∀ lines : List Line,
      (∀ m ∈ unstNumbersOf lines, m < unstNext lines) ∧
      (unstNumbersOf lines ≠ [] → unstNext lines - 1 ∈ unstNumbersOf lines) ∧
      (unstNumbersOf lines = [] → unstNext lines = 1)) ∧
    (∀ content : Line,
      (∀ m ∈ plan_existing_numbers content, m < plan_next_number content) ∧
      (plan_existing_numbers content ≠ [] →
        plan_next_number content - 1 ∈ plan_existing_numbers content) ∧
      (plan_existing_numbers content = [] → plan_next_number content = 1)) ∧
    unstNext [str "Unsteady File=u01\n", str "Unsteady File=u03\n"] = 4 := by
  refine ⟨fun lines => ?_, fun content => ?_, by decide⟩
  · exact append_next_spec (unstNumbersOf lines)
  · exact append_next_spec (plan_existing_numbers content)

/-- C10: when the extracted-tables dictionary has no `"Flow Hydrograph="`
key, `scale_flow_hydrograph` returns the dictionary unchanged together with
`none` as the original values; the absent table is tolerated, not an error. -/
theorem scale_flow_hydrograph_missing_key (tables : List (Line × List ℚ))
    (factor : ℚ) (h : flowKey ∉ tables.map Prod.fst) :
    scale_flow_hydrograph tables factor = (tables, none) := by
  rw [scale_flow_hydrograph, lookup_none_of_key_not_mem tables flowKey h]

/-- Witness for C10 at a concrete single-table dictionary. -/
theorem scale_flow_hydrograph_missing_key_witness :
    scale_flow_hydrograph [(str "Stage Hydrograph=", [(1 : ℚ), 2])] (3/2) =
      ([(str "Stage Hydrograph=", [(1 : ℚ), 2])], none) :=
  scale_flow_hydrograph_missing_key _ _ (by decide)

theorem nextFree_ge (s : List Nat) (k : Nat) : k ≤ nextFree s k := by
  induction s, k using nextFree.induct with
  | case1 s k h ih => rw [nextFree, dif_pos h]; omega
  | case2 s k h => rw [nextFree, dif_neg h]

theorem nextFree_not_mem (s : List Nat) (k : Nat) : nextFree s k ∉ s := by
  induction s, k using nextFree.induct with
  | case1 s k h ih =>
    rw [nextFree, dif_pos h]
    intro hmem
    have hge : k + 1 ≤ nextFree (s.erase k) (k + 1) := nextFree_ge ..
    have hne : nextFree (s.erase k) (k + 1) ≠ k := by omega
    exact ih ((List.mem_erase_of_ne hne).2 hmem)
  | case2 s k h => rw [nextFree, dif_neg h]; exact h

theorem nextFree_covers (s : List Nat) (k : Nat) :
    ∀ j, k ≤ j → j < nextFree s k → j ∈ s := by
  induction s, k using nextFree.induct with
  | case1 s k h ih =>
    rw [nextFree, dif_pos h]
    intro j hj1 hj2
    rcases Nat.eq_or_lt_of_le hj1 with rfl | hlt
    · exact h
    · exact List.mem_of_mem_erase (ih j hlt hj2)
  | case2 s k h =>
    rw [nextFree, dif_neg h]
    intro j hj1 hj2
    omega

theorem scanNext_spec (l : List Nat) : ∀ k, l.Sorted (· < ·) → (∀ m ∈ l, k ≤ m) →
    k ≤ scanNext l k ∧ scanNext l k ∉ l ∧
      ∀ j, k ≤ j → j < scanNext l k → j ∈ l := by
  induction l with
  | nil =>
    intro k _ _
    refine ⟨le_refl k, by simp, fun j h1 h2 => ?_⟩
    simp only [scanNext] at h2
    omega
  | cons m rest ih =>
    intro k hs hk
    rw [List.sorted_cons] at hs
    obtain ⟨hrel, hs2⟩ := hs
    by_cases hm : m = k
    · subst hm
      have hk2 : ∀ x ∈ rest, m + 1 ≤ x := fun x hx => hrel x hx
      obtain ⟨ih1, ih2, ih3⟩ := ih (m + 1) hs2 hk2
      have hsc : scanNext (m :: rest) m = scanNext rest (m + 1) := by
        simp [scanNext]
      refine ⟨?_, ?_, ?_⟩
      · rw [hsc]; omega
      · rw [hsc]
        intro hmem
        rcases List.mem_cons.1 hmem with heq | hmem2
        · omega
        · exact ih2 hmem2
      · rw [hsc]
        intro j hj1 hj2
        rcases Nat.eq_or_lt_of_le hj1 with rfl | hlt
        · exact List.mem_cons_self ..
        · exact List.mem_cons_of_mem _ (ih3 j hlt hj2)
    · have hsc : scanNext (m :: rest) k = k := by simp [scanNext, hm]
      have hkm : k ≤ m := hk m (List.mem_cons_self ..)
      have hkm2 : k < m := lt_of_le_of_ne hkm (fun he => hm he.symm)
      refine ⟨by rw [hsc], ?_, ?_⟩
      · rw [hsc]
        intro hmem
        rcases List.mem_cons.1 hmem with heq | hmem2
        · omega
        · have := hrel k hmem2
          omega
      · rw [hsc]
        intro j hj1 hj2
        omega

/-- C4: gap-fill allocation.  `get_next_available_number` returns (as a
two-digit string) the smallest number from 1 upward absent from the parsed
existing numbers, ignoring entries without an all-digit suffix; the inline
scan of `copy_geometry_from_template` likewise allocates the smallest number
from 1 upward absent from the (duplicate-free, positive) existing geometry
numbers. -/
theorem gap_fill_allocation (ss : List Line) (lines : List Line)
    (hnd : (geomNumbersOf lines).Nodup)
    (hpos : ∀ m ∈ geomNumbersOf lines, 1 ≤ m) :
    (∃ m, get_next_available_number ss = pad2 m ∧ 1 ≤ m ∧ m ∉ idNumsOf ss ∧
      ∀ j, 1 ≤ j → j < m → j ∈ idNumsOf ss) ∧
    (1 ≤ geomNext lines ∧ geomNext lines ∉ geomNumbersOf lines ∧
      ∀ j, 1 ≤ j → j < geomNext lines → j ∈ geomNumbersOf lines) ∧
    (∀ bad ss₁ ss₂, (bad.drop 1 = [] ∨ ¬(bad.drop 1).all Char.isDigit) →
      get_next_available_number (ss₁ ++ bad :: ss₂) =
        get_next_available_number (ss₁ ++ ss₂)) := by
  refine ⟨?_, ?_, ?_⟩
  · exact ⟨nextFree (idNumsOf ss) 1, rfl, nextFree_ge (idNumsOf ss) 1,
      nextFree_not_mem (idNumsOf ss) 1, nextFree_covers (idNumsOf ss) 1⟩
  · set ex := geomNumbersOf lines with hex
    by_cases he : ex = []
    · have hg : geomNext lines = 1 := by simp [geomNext, ← hex, he]
      rw [hg]
      refine ⟨le_refl 1, by rw [he]; simp, fun j h1 h2 => by omega⟩
    · have hg : geomNext lines = scanNext (List.insertionSort (· ≤ ·) ex) 1 := by
        simp [geomNext, ← hex, he]
      have hperm : (List.insertionSort (· ≤ ·) ex).Perm ex :=
        List.perm_insertionSort _ ex
      have hsle : (List.insertionSort (· ≤ ·) ex).Sorted (· ≤ ·) :=
        List.sorted_insertionSort _ ex
      have hndp : (List.insertionSort (· ≤ ·) ex).Nodup := hperm.nodup_iff.2 hnd
      have hslt : (List.insertionSort (· ≤ ·) ex).Sorted (· < ·) :=
        hsle.lt_of_le hndp
      have hp1 : ∀ m ∈ List.insertionSort (· ≤ ·) ex, 1 ≤ m :=
        fun m hm => hpos m (hperm.mem_iff.1 hm)
      obtain ⟨h1, h2, h3⟩ := scanNext_spec (List.insertionSort (· ≤ ·) ex) 1 hslt hp1
      rw [hg]
      refine ⟨h1, fun hmem => h2 (hperm.mem_iff.2 hmem), fun j hj1 hj2 =>
        hperm.mem_iff.1 (h3 j hj1 hj2)⟩
  · intro bad ss₁ ss₂ hbad
    have hnone : (if bad.drop 1 ≠ [] ∧ (bad.drop 1).all Char.isDigit
        then some (digitsVal (bad.drop 1)) else none) = none := by
      have hc : ¬(bad.drop 1 ≠ [] ∧ (bad.drop 1).all Char.isDigit) := by
        rcases hbad with h | h
        · exact fun hc => hc.1 h
        · exact fun hc => h hc.2
      rw [if_neg hc]
    have hid : idNumsOf (ss₁ ++ bad :: ss₂) = idNumsOf (ss₁ ++ ss₂) := by
      simp only [idNumsOf, List.filterMap_append, List.filterMap_cons, hnone]
    rw [get_next_available_number, get_next_available_number, hid]

/-- Witness for C4: existing IDs `{1, 3}` give gap-fill geometry number 2,
and existing entries `{g01, g02, g04}` give `"03"`. -/
theorem gap_fill_allocation_witness :
    geomNext [geomRefLine (str "01"), geomRefLine (str "03")] = 2 ∧
    get_next_available_number [str "g01", str "g02", str "g04"] = str "03" := by
  obtain ⟨⟨m, hm, hm1, hm2, hm3⟩, ⟨hg1, hg2, hg3⟩, _⟩ :=
    gap_fill_allocation [str "g01", str "g02", str "g04"]
      [geomRefLine (str "01"), geomRefLine (str "03")] (by decide) (by decide)
  have hnums : idNumsOf [str "g01", str "g02", str "g04"] = [1, 2, 4] := by decide
  have hgeo : geomNumbersOf [geomRefLine (str "01"), geomRefLine (str "03")]
      = [1, 3] := by decide
  rw [hnums] at hm2 hm3
  rw [hgeo] at hg2 hg3
  constructor
  · have hle : geomNext [geomRefLine (str "01"), geomRefLine (str "03")] ≤ 2 := by
      by_contra hgt
      have h2 := hg3 2 (by omega) (by omega)
      simp at h2
    have hne1 : geomNext [geomRefLine (str "01"), geomRefLine (str "03")] ≠ 1 := by
      intro he
      rw [he] at hg2
      simp at hg2
    omega
  · have hmle : m ≤ 3 := by
      by_contra hgt
      have h3 := hm3 3 (by omega) (by omega)
      simp at h3
    have hne1 : m ≠ 1 := by intro he; rw [he] at hm2; simp at hm2
    have hne2 : m ≠ 2 := by intro he; rw [he] at hm2; simp at hm2
    have hme : m = 3 := by omega
    rw [hme] at hm
    rw [hm]
    simp [pad2, decRepr]
    decide

/-- Witness for C5: existing unsteady IDs `{1, 3}` give 4, one more than an
existing number. -/
theorem append_allocation_rule_witness :
    unstNext [str "Unsteady File=u01\n", str "Unsteady File=u03\n"] = 4 ∧
    unstNext [str "Unsteady File=u01\n", str "Unsteady File=u03\n"] - 1 ∈
      unstNumbersOf [str "Unsteady File=u01\n", str "Unsteady File=u03\n"] := by
  obtain ⟨hu, _, hc⟩ := append_allocation_rule
  exact ⟨hc, (hu _).2.1 (by decide)⟩

theorem not_ws_of_digit (c : Char) (h : c.isDigit = true) : isWS c = false := by
  simp only [isWS, Bool.or_eq_false_iff, decide_eq_false_iff_not]
  refine ⟨⟨⟨⟨⟨?_, ?_⟩, ?_⟩, ?_⟩, ?_⟩, ?_⟩ <;>
    · rintro rfl
      exact absurd h (by decide)

theorem digit_ne_eq (c : Char) (h : c.isDigit = true) : c ≠ '=' := by
  rintro rfl
  exact absurd h (by decide)

theorem digitChar_isDigit (d : Nat) (h : d < 10) : (Nat.digitChar d).isDigit = true := by
  interval_cases d <;> decide

theorem digitChar_toNat (d : Nat) (h : d < 10) : (Nat.digitChar d).toNat = 48 + d := by
  interval_cases d <;> decide

theorem decRepr_ne_nil (n : Nat) : decRepr n ≠ [] := by
  rw [decRepr]
  split
  · simp
  · simp

theorem decRepr_all_digit (n : Nat) : ∀ c ∈ decRepr n, c.isDigit = true := by
  induction n using decRepr.induct with
  | case1 n h =>
    rw [decRepr, dif_pos h]
    intro c hc
    rw [List.mem_singleton] at hc
    subst hc
    exact digitChar_isDigit n h
  | case2 n h ih =>
    rw [decRepr, dif_neg h]
    intro c hc
    rcases List.mem_append.1 hc with hc | hc
    · exact ih c hc
    · rw [List.mem_singleton] at hc
      subst hc
      exact digitChar_isDigit _ (Nat.mod_lt n (by omega))

theorem digitsVal_decRepr (n : Nat) : digitsVal (decRepr n) = n := by
  induction n using decRepr.induct with
  | case1 n h =>
    rw [decRepr, dif_pos h]
    simp only [digitsVal, List.foldl_cons, List.foldl_nil]
    rw [digitChar_toNat n h]
    omega
  | case2 n h ih =>
    rw [decRepr, dif_neg h]
    simp only [digitsVal, List.foldl_append, List.foldl_cons, List.foldl_nil]
    simp only [digitsVal] at ih
    rw [ih, digitChar_toNat _ (Nat.mod_lt n (by omega))]
    omega

theorem parseNat_decRepr (n : Nat) : parseNat (decRepr n) = some n := by
  rw [parseNat, if_pos ⟨decRepr_ne_nil n, List.all_eq_true.2 (decRepr_all_digit n)⟩,
    digitsVal_decRepr]

theorem trimChars_exact (w1 core w2 : Line)
    (hw1 : ∀ x ∈ w1, isWS x = true) (hw2 : ∀ x ∈ w2, isWS x = true)
    (hh : isWS (core.headD ' ') = false ∨ core = [])
    (hl : ∀ h₀ : core ≠ [], isWS (core.getLast h₀) = false) :
    trimChars (w1 ++ core ++ w2) = core := by
  rcases eq_or_ne core [] with rfl | hne
  · have hall : (w1 ++ [] ++ w2).dropWhile isWS = [] :=
      List.dropWhile_eq_nil_iff.2 (by
        intro x hx
        rcases List.mem_append.1 hx with hx | hx
        · exact hw1 x (by simpa using hx)
        · exact hw2 x hx)
    rw [trimChars, hall]
    simp
  · obtain ⟨c, core', rfl⟩ : ∃ c core', core = c :: core' := by
      rcases core with _ | ⟨c, core'⟩
      · exact absurd rfl hne
      · exact ⟨c, core', rfl⟩
    have hc : isWS c = false := by
      rcases hh with hh | hh
      · exact hh
      · exact absurd hh hne
    have step1 : (w1 ++ (c :: core') ++ w2).dropWhile isWS = (c :: core') ++ w2 := by
      rw [List.append_assoc, List.dropWhile_append]
      rw [List.dropWhile_eq_nil_iff.2 hw1]
      simp only [List.isEmpty_nil, if_true]
      rw [List.dropWhile_append]
      rw [List.dropWhile_cons, hc]
      simp
    obtain ⟨L, b, hcb⟩ : ∃ L b, c :: core' = L ++ [b] := by
      rcases List.eq_nil_or_concat (c :: core') with h0 | ⟨L, b, h0⟩
      · exact absurd h0 (by simp)
      · exact ⟨L, b, by rw [h0, List.concat_eq_append]⟩
    have hglq : (c :: core').getLast? = some b := by
      rw [hcb]
      exact List.getLast?_concat ..
    have hgl : (c :: core').getLast hne = b := by
      rw [List.getLast?_eq_getLast _ hne] at hglq
      exact Option.some.inj hglq
    have hb : isWS b = false := hgl ▸ hl hne
    have step2 : ((c :: core') ++ w2).reverse.dropWhile isWS = b :: L.reverse := by
      rw [List.reverse_append, hcb, List.reverse_append, List.dropWhile_append]
      rw [List.dropWhile_eq_nil_iff.2 (by
        intro x hx
        exact hw2 x (List.mem_reverse.1 hx))]
      simp only [List.isEmpty_nil, if_true]
      simp only [List.reverse_singleton, List.singleton_append]
      rw [List.dropWhile_cons, hb]
      simp
    rw [trimChars, step1, step2]
    rw [List.reverse_cons, List.reverse_reverse, ← hcb]

theorem trimChars_clean (core : Line) (hne : core ≠ [])
    (hh : isWS (core.headD ' ') = false) (hl : isWS (core.getLast hne) = false) :
    trimChars core = core := by
  have := trimChars_exact [] core [] (by simp) (by simp) (Or.inl hh) (fun _ => hl)
  simpa using this

theorem trimChars_nl (core : Line) (hne : core ≠ [])
    (hh : isWS (core.headD ' ') = false) (hl : isWS (core.getLast hne) = false) :
    trimChars (core ++ ['\n']) = core := by
  have := trimChars_exact [] core ['\n'] (by simp) (by decide)
    (Or.inl hh) (fun _ => hl)
  simpa using this

theorem splitEq_no_eq (a : Line) (ha : ∀ c ∈ a, c ≠ '=') : splitEq a = [a] := by
  induction a with
  | nil => rfl
  | cons c rest ih =>
    rw [splitEq]
    rw [if_neg (ha c (List.mem_cons_self ..))]
    rw [ih (fun x hx => ha x (List.mem_cons_of_mem c hx))]

theorem splitEq_append_eq (a b : Line) (ha : ∀ c ∈ a, c ≠ '=') :
    splitEq (a ++ '=' :: b) = a :: splitEq b := by
  induction a with
  | nil =>
    show splitEq ('=' :: b) = [] :: splitEq b
    rw [splitEq, if_pos rfl]
  | cons c rest ih =>
    show splitEq (c :: (rest ++ '=' :: b)) = (c :: rest) :: splitEq b
    rw [splitEq, if_neg (ha c (List.mem_cons_self ..))]
    rw [ih (fun x hx => ha x (List.mem_cons_of_mem c hx))]

/-- C7: validation precedes every mutating write.  With a geometry number
absent from a (nonempty) project registry, `apply_geometry_to_plan` stops
with the unknown-resource-id error (the error value models the `ValueError`
raised before the plan file is opened for writing, so the plan content is
untouched); with either flag outside `{0, -1}`, `update_geompre_flags` stops
with the invalid-flag-value error before reading or writing the plan file. -/
theorem validation_precedes_write (proj plan : List Line) (g : Line)
    (hne : get_geom_entries proj ≠ []) (habs : g ∉ get_geom_entries proj) :
    apply_geometry_to_plan plan g proj =
      Except.error (str "Geometry number not found in project file.") ∧
    (∀ (lines : List Line) (rh uib : ℤ), rh ≠ -1 ∧ rh ≠ 0 →
      update_geompre_flags lines rh uib =
        Except.error (str "Invalid value for Run HTab. Expected 0 or -1.")) ∧
    (∀ (lines : List Line) (rh uib : ℤ), (rh = -1 ∨ rh = 0) → uib ≠ -1 ∧ uib ≠ 0 →
      update_geompre_flags lines rh uib =
        Except.error
          (str "Invalid value for UNET Use Existing IB Tables. Expected 0 or -1.")) := by
  refine ⟨?_, ?_, ?_⟩
  · have hemp : (get_geom_entries proj).isEmpty = false := by
      rcases hlist : get_geom_entries proj with _ | _
      · exact absurd hlist hne
      · rfl
    rw [apply_geometry_to_plan]
    simp only [hemp, Bool.false_eq_true, if_false]
    rw [if_neg habs]
  · intro lines rh uib h
    rw [update_geompre_flags, if_pos (not_or.2 ⟨h.1, h.2⟩)]
  · intro lines rh uib hor h
    rw [update_geompre_flags, if_neg (not_not_intro hor),
      if_pos (not_or.2 ⟨h.1, h.2⟩)]

/-- Witness for C7: geometry `02` absent from a registry holding only `01`,
and `Run HTab` flag value 1. -/
theorem validation_precedes_write_witness :
    apply_geometry_to_plan [str "Geom File=g01\n"] (str "02")
        [geomRefLine (str "01")] =
      Except.error (str "Geometry number not found in project file.") ∧
    update_geompre_flags [str "Run HTab= 0 \n"] 1 0 =
      Except.error (str "Invalid value for Run HTab. Expected 0 or -1.") := by
  obtain ⟨h1, h2, _⟩ := validation_precedes_write [geomRefLine (str "01")]
    [str "Geom File=g01\n"] (str "02") (by decide) (by decide)
  exact ⟨h1, h2 [str "Run HTab= 0 \n"] 1 0 (by decide)⟩

theorem geomRefLine_decomp (x : Line) :
    geomRefLine x = str "Geom File" ++ '=' :: (str "g" ++ (x ++ ['\n'])) := by
  have hconc : str "Geom File=g" = str "Geom File" ++ '=' :: str "g" := by decide
  rw [geomRefLine, hconc]
  simp [List.append_assoc]

theorem get_geom_entries_strip (pre post : List Line) (x : Line) (hx : x ≠ [])
    (hxd : ∀ c ∈ x, c.isDigit = true) :
    get_geom_entries (pre ++ geomRefLine x :: post) =
      get_geom_entries pre ++ x :: get_geom_entries post := by
  have hpre : (str "Geom File=").isPrefixOf (geomRefLine x) = true := by
    rw [List.isPrefixOf_iff_prefix]
    refine ⟨str "g" ++ (x ++ ['\n']), ?_⟩
    rw [geomRefLine_decomp]
    have : str "Geom File=" = str "Geom File" ++ ['='] := by decide
    rw [this]
    simp
  have hsplit : splitEq (geomRefLine x) = [str "Geom File", str "g" ++ (x ++ ['\n'])] := by
    rw [geomRefLine_decomp]
    rw [splitEq_append_eq _ _ (by decide)]
    rw [splitEq_no_eq]
    intro c hc
    rcases List.mem_append.1 hc with hc | hc
    · rcases List.mem_singleton.1 (by simpa [str] using hc) with rfl
      decide
    · rcases List.mem_append.1 hc with hc | hc
      · exact digit_ne_eq c (hxd c hc)
      · rcases List.mem_singleton.1 hc with rfl
        decide
  have htrim : trimChars (str "g" ++ (x ++ ['\n'])) = 'g' :: x := by
    have hshape : str "g" ++ (x ++ ['\n']) = [] ++ ('g' :: x) ++ ['\n'] := by
      simp [str]
    rw [hshape]
    refine trimChars_exact [] ('g' :: x) ['\n'] (by simp) (by decide)
      (Or.inl (by show isWS 'g' = false; decide)) ?_
    intro h0
    rw [List.getLast_cons hx]
    exact not_ws_of_digit _ (hxd _ (List.getLast_mem hx))
  have hfx : (if (str "Geom File=").isPrefixOf (geomRefLine x) then
      some ((trimChars ((splitEq (geomRefLine x)).getD 1 [])).drop 1)
      else none) = some x := by
    rw [if_pos hpre, hsplit]
    have hgd : ([str "Geom File", str "g" ++ (x ++ ['\n'])] : List Line).getD 1 []
        = str "g" ++ (x ++ ['\n']) := rfl
    rw [hgd, htrim]
    rfl
  unfold get_geom_entries
  rw [List.filterMap_append, List.filterMap_cons]
  rw [hfx]

/-- C8: `get_geom_entries` strips the type letter, returning bare number
strings, so the registry check of `apply_geometry_to_plan` succeeds only on
bare numbers: called with the letter-prefixed identifier that
`copy_geometry_from_template` returns (`'g' :: x`), it raises the
unknown-resource-id `ValueError` even though the bare number `x` is
registered in the project. -/
theorem geom_letter_prefixed_id_fails (pre post plan proj : List Line) (x : Line)
    (hx : x ≠ []) (hxd : ∀ c ∈ x, c.isDigit = true)
    (hproj : ∀ e ∈ get_geom_entries proj, ∀ c ∈ e, c.isDigit = true)
    (hmem : x ∈ get_geom_entries proj) :
    get_geom_entries (pre ++ geomRefLine x :: post) =
      get_geom_entries pre ++ x :: get_geom_entries post ∧
    apply_geometry_to_plan plan ('g' :: x) proj =
      Except.error (str "Geometry number not found in project file.") := by
  refine ⟨get_geom_entries_strip pre post x hx hxd, ?_⟩
  have hnot : ('g' :: x) ∉ get_geom_entries proj := by
    intro hmem2
    have hg := hproj _ hmem2 'g' (List.mem_cons_self ..)
    exact absurd hg (by decide)
  have hemp : (get_geom_entries proj).isEmpty = false := by
    rcases hlist : get_geom_entries proj with _ | ⟨a, t⟩
    · rw [hlist] at hmem
      simp at hmem
    · rfl
  rw [apply_geometry_to_plan]
  simp only [hemp, Bool.false_eq_true, if_false]
  rw [if_neg hnot]

/-- Witness for C8: a project registering geometry `03`; looking up `"g03"`
fails while the stripped entry is `"03"`. -/
theorem geom_letter_prefixed_id_fails_witness :
    get_geom_entries [geomRefLine (str "03")] = [str "03"] ∧
    apply_geometry_to_plan [str "Geom File=g01\n"] (str "g03")
        [geomRefLine (str "03")] =
      Except.error (str "Geometry number not found in project file.") := by
  obtain ⟨h1, h2⟩ := geom_letter_prefixed_id_fails [] [] [str "Geom File=g01\n"]
    [geomRefLine (str "03")] (str "03") (by decide) (by decide) (by decide)
    (by decide)
  constructor
  · simpa using h1
  · have hgx : str "g03" = 'g' :: str "03" := by decide
    rw [hgx]
    exact h2

theorem take_set_eq (l : List Line) (n : Nat) (x : Line) :
    (l.set n x).take n = l.take n := by
  ext1 i
  simp only [List.getElem?_take]
  split
  · next h => rw [List.getElem?_set_ne (by omega)]
  · rfl

theorem isPrefixOf_append_self (key t : Line) : key.isPrefixOf (key ++ t) = true := by
  rw [List.isPrefixOf_iff_prefix]
  exact ⟨t, rfl⟩

theorem containsSub_of_isPre (key l : Line) (h : key.isPrefixOf l = true) :
    containsSub key l = true := by
  cases l with
  | nil => simpa [containsSub] using h
  | cons c rest => simp [containsSub, h]

theorem decRepr_headD_not_ws (c : Nat) : isWS ((decRepr c).headD ' ') = false := by
  rcases hd : decRepr c with _ | ⟨d, t⟩
  · exact absurd hd (decRepr_ne_nil c)
  · have : d ∈ decRepr c := by rw [hd]; exact List.mem_cons_self ..
    exact not_ws_of_digit d (decRepr_all_digit c d this)

theorem decRepr_getLast_not_ws (c : Nat) (h : decRepr c ≠ []) :
    isWS ((decRepr c).getLast h) = false :=
  not_ws_of_digit _ (decRepr_all_digit c _ (List.getLast_mem h))

theorem trimChars_sp_decRepr (c : Nat) : trimChars (' ' :: decRepr c) = decRepr c := by
  have hshape : ' ' :: decRepr c = [' '] ++ decRepr c ++ [] := by simp
  rw [hshape]
  exact trimChars_exact [' '] (decRepr c) [] (by decide) (by simp)
    (Or.inl (decRepr_headD_not_ws c)) (fun h => decRepr_getLast_not_ws c h)

theorem parseDecl_std (aStr : Line) (c : Nat) (a0 : Char) (arest : Line)
    (ha : aStr = a0 :: arest) (hhead : isWS a0 = false)
    (hnoeq : ∀ ch ∈ aStr, ch ≠ '=') :
    parseDecl (aStr ++ '=' :: ' ' :: (decRepr c ++ ['\n'])) =
      some (aStr ++ ['='], c) := by
  have htrim : trimChars (aStr ++ '=' :: ' ' :: (decRepr c ++ ['\n'])) =
      aStr ++ '=' :: ' ' :: decRepr c := by
    have hshape : aStr ++ '=' :: ' ' :: (decRepr c ++ ['\n']) =
        [] ++ (aStr ++ '=' :: ' ' :: decRepr c) ++ ['\n'] := by simp
    rw [hshape]
    refine trimChars_exact [] (aStr ++ '=' :: ' ' :: decRepr c) ['\n']
      (by simp) (by decide) (Or.inl ?_) ?_
    · rw [ha]
      exact hhead
    · intro h0
      have hre : aStr ++ '=' :: ' ' :: decRepr c =
          (aStr ++ ['=', ' ']) ++ decRepr c := by simp
      have hne2 : (aStr ++ ['=', ' ']) ++ decRepr c ≠ [] := by
        simp [decRepr_ne_nil c]
      have hgl2 : ((aStr ++ ['=', ' ']) ++ decRepr c).getLast hne2 =
          (decRepr c).getLast (decRepr_ne_nil c) :=
        List.getLast_append_of_ne_nil (decRepr_ne_nil c)
      have hgl : (aStr ++ '=' :: ' ' :: decRepr c).getLast h0 =
          (decRepr c).getLast (decRepr_ne_nil c) :=
        (List.getLast_congr h0 hne2 hre).trans hgl2
      rw [hgl]
      exact decRepr_getLast_not_ws c _
  have hsplit : splitEq (aStr ++ '=' :: ' ' :: decRepr c) =
      [aStr, ' ' :: decRepr c] := by
    rw [splitEq_append_eq _ _ hnoeq]
    rw [splitEq_no_eq]
    intro ch hch
    rcases List.mem_cons.1 hch with rfl | hch
    · decide
    · exact digit_ne_eq ch (decRepr_all_digit c ch hch)
  rw [parseDecl, htrim, hsplit]
  have hg0 : ([aStr, ' ' :: decRepr c] : List Line).getD 0 [] = aStr := rfl
  have hg1 : ([aStr, ' ' :: decRepr c] : List Line).getD 1 [] = ' ' :: decRepr c := rfl
  rw [hg0, hg1, trimChars_sp_decRepr, parseNat_decRepr]
  rfl

theorem flowDeclLine_decomp (c : Nat) :
    flowDeclLine c = str "Flow Hydrograph" ++ '=' :: ' ' :: (decRepr c ++ ['\n']) := by
  have hk : str "Flow Hydrograph= " = str "Flow Hydrograph" ++ ['=', ' '] := by decide
  rw [flowDeclLine, hk]
  simp

theorem stageDeclLine_decomp (c : Nat) :
    stageDeclLine c = str "Stage Hydrograph" ++ '=' :: ' ' :: (decRepr c ++ ['\n']) := by
  have hk : str "Stage Hydrograph= " = str "Stage Hydrograph" ++ ['=', ' '] := by decide
  rw [stageDeclLine, hk]
  simp

theorem parseDecl_flowDecl (c : Nat) :
    parseDecl (flowDeclLine c) = some (str "Flow Hydrograph=", c) := by
  rw [flowDeclLine_decomp]
  rw [parseDecl_std (str "Flow Hydrograph") c 'F' (str "low Hydrograph")
    (by decide) (by decide) (by decide)]
  have : str "Flow Hydrograph" ++ ['='] = str "Flow Hydrograph=" := by decide
  rw [this]

theorem parseDecl_stageDecl (c : Nat) :
    parseDecl (stageDeclLine c) = some (str "Stage Hydrograph=", c) := by
  rw [stageDeclLine_decomp]
  rw [parseDecl_std (str "Stage Hydrograph") c 'S' (str "tage Hydrograph")
    (by decide) (by decide) (by decide)]
  have : str "Stage Hydrograph" ++ ['='] = str "Stage Hydrograph=" := by decide
  rw [this]

theorem isTableLine_flowDecl (c : Nat) : isTableLine (flowDeclLine c) = true := by
  have hpre : (str "Flow Hydrograph=").isPrefixOf (flowDeclLine c) = true := by
    have : flowDeclLine c = str "Flow Hydrograph=" ++ (' ' :: (decRepr c ++ ['\n'])) := by
      rw [flowDeclLine_decomp]
      have hk : str "Flow Hydrograph=" = str "Flow Hydrograph" ++ ['='] := by decide
      rw [hk]
      simp
    rw [this]
    exact isPrefixOf_append_self ..
  rw [isTableLine]
  rw [List.any_eq_true]
  exact ⟨str "Flow Hydrograph=", by decide, containsSub_of_isPre _ _ hpre⟩

theorem isTableLine_stageDecl (c : Nat) : isTableLine (stageDeclLine c) = true := by
  have hpre : (str "Stage Hydrograph=").isPrefixOf (stageDeclLine c) = true := by
    have : stageDeclLine c = str "Stage Hydrograph=" ++ (' ' :: (decRepr c ++ ['\n'])) := by
      rw [stageDeclLine_decomp]
      have hk : str "Stage Hydrograph=" = str "Stage Hydrograph" ++ ['='] := by decide
      rw [hk]
      simp
    rw [this]
    exact isPrefixOf_append_self ..
  rw [isTableLine]
  rw [List.any_eq_true]
  exact ⟨str "Stage Hydrograph=", by decide, containsSub_of_isPre _ _ hpre⟩

theorem identGo_cons (l : Line) (rest : List Line) (i : Nat)
    (cur : Option (Line × Nat × Nat)) (acc : List (Line × Nat × Nat)) :
    identGo (l :: rest) i cur acc =
      if isTableLine l then
        match parseDecl l with
        | none => none
        | some (nm, cnt) =>
          identGo rest (i + 1) (some (nm, i + 1, cnt))
            (match cur with
             | none => acc
             | some (nm₀, s₀, _) => acc ++ [(nm₀, s₀, i - 1)])
      else identGo rest (i + 1) cur acc := rfl

theorem identGo_skip (blk : List Line) (rest : List Line) (i : Nat)
    (cur : Option (Line × Nat × Nat)) (acc : List (Line × Nat × Nat))
    (hblk : ∀ l ∈ blk, isTableLine l = false) :
    identGo (blk ++ rest) i cur acc = identGo rest (i + blk.length) cur acc := by
  induction blk generalizing i with
  | nil => simp
  | cons l t ih =>
    have hl : isTableLine l = false := hblk l (List.mem_cons_self ..)
    show identGo (l :: (t ++ rest)) i cur acc = _
    rw [identGo_cons, if_neg (by simp [hl])]
    rw [ih (i + 1) (fun x hx => hblk x (List.mem_cons_of_mem l hx))]
    congr 1
    simp only [List.length_cons]
    omega

theorem identGo_decl (l : Line) (rest : List Line) (i : Nat)
    (cur : Option (Line × Nat × Nat)) (acc : List (Line × Nat × Nat))
    (hl : isTableLine l = true) (nm : Line) (cnt : Nat)
    (hp : parseDecl l = some (nm, cnt)) :
    identGo (l :: rest) i cur acc =
      identGo rest (i + 1) (some (nm, i + 1, cnt))
        (match cur with
         | none => acc
         | some (nm₀, s₀, _) => acc ++ [(nm₀, s₀, i - 1)]) := by
  rw [identGo_cons, if_pos hl, hp]

theorem identGo_skip_end (blk : List Line) (i : Nat)
    (cur : Option (Line × Nat × Nat)) (acc : List (Line × Nat × Nat))
    (hblk : ∀ l ∈ blk, isTableLine l = false) :
    identGo blk i cur acc = some (match cur with
      | none => acc
      | some (nm, s, cnt) => acc ++ [(nm, s, s + (cnt + 9) / 10)]) := by
  have h := identGo_skip blk [] i cur acc hblk
  simp only [List.append_nil] at h
  rw [h]
  rfl

/-- C1 (amended): the final table located by `identify_tables` has extent
`⌈count/10⌉` lines after its declaration (`endLine = startLine + ⌈count/10⌉`),
but every earlier table is closed at the line immediately before the next
declaration (`endLine = nextDeclIndex - 1`); when the next declaration
immediately follows the content, that makes `endLine - startLine` equal to
`⌈count/10⌉ - 1`, not `⌈count/10⌉`. -/
theorem identify_tables_extent (c₁ c₂ : Nat) (body tail : List Line)
    (hbody : ∀ l ∈ body, isTableLine l = false)
    (htail : ∀ l ∈ tail, isTableLine l = false) :
    identify_tables (flowDeclLine c₁ :: body) =
      some [(str "Flow Hydrograph=", 1, 1 + (c₁ + 9) / 10)] ∧
    identify_tables (flowDeclLine c₁ :: (body ++ stageDeclLine c₂ :: tail)) =
      some [(str "Flow Hydrograph=", 1, body.length),
            (str "Stage Hydrograph=", body.length + 2,
             body.length + 2 + (c₂ + 9) / 10)] := by
  constructor
  · rw [identify_tables]
    rw [identGo_decl _ _ _ _ _ (isTableLine_flowDecl c₁) _ _ (parseDecl_flowDecl c₁)]
    rw [show (0 : Nat) + 1 = 1 from rfl]
    rw [identGo_skip_end body _ _ _ hbody]
    rfl
  · rw [identify_tables]
    rw [identGo_decl _ _ _ _ _ (isTableLine_flowDecl c₁) _ _ (parseDecl_flowDecl c₁)]
    rw [show (0 : Nat) + 1 = 1 from rfl]
    rw [identGo_skip body (stageDeclLine c₂ :: tail) 1 _ _ hbody]
    rw [identGo_decl _ _ _ _ _ (isTableLine_stageDecl c₂) _ _ (parseDecl_stageDecl c₂)]
    rw [identGo_skip_end tail _ _ _ htail]
    have e1 : 1 + body.length - 1 = body.length := by omega
    have e2 : 1 + body.length + 1 = body.length + 2 := by omega
    simp only [e1, e2]
    rfl

/-- Counterexample for C1 as stated: in a document with two tables, the
first table (declared count 23) is reported with extent `(1, 3)`, and
`3 - 1 = 2` is not `⌈23/10⌉ = 3`; only the final table's extent follows the
ceil-division rule. -/
theorem identify_tables_extent_counterexample :
    identify_tables
      [str "Flow Hydrograph= 23\n", str "       1\n", str "       2\n",
       str "       3\n", str "Stage Hydrograph= 5\n", str "       9\n"] =
      some [(str "Flow Hydrograph=", 1, 3), (str "Stage Hydrograph=", 5, 6)] ∧
    3 - 1 ≠ (23 + 9) / 10 := by
  exact ⟨by decide, by decide⟩

/-- Witness for C1 (amended) at declared counts 23 and 5 with three content
lines: the final-table extent is `ceil`-sized, the earlier table closes at
the line before the next declaration. -/
theorem identify_tables_extent_witness :
    identify_tables (flowDeclLine 23 ::
        [str "       1\n", str "       2\n", str "       3\n"]) =
      some [(str "Flow Hydrograph=", 1, 1 + (23 + 9) / 10)] ∧
    identify_tables (flowDeclLine 23 ::
        ([str "       1\n", str "       2\n", str "       3\n"] ++
          stageDeclLine 5 :: [])) =
      some [(str "Flow Hydrograph=", 1, 3),
            (str "Stage Hydrograph=", 3 + 2, 3 + 2 + (5 + 9) / 10)] :=
  identify_tables_extent 23 5
    [str "       1\n", str "       2\n", str "       3\n"] []
    (by decide) (by decide)

/-- C9: `parse_fixed_width_table` decodes only the half-open line range
`[start, end)`: the line at index `end` is never read (rewriting it leaves
the decode unchanged); for a table followed by a later declaration, the end
index reported by `identify_tables` is the line immediately before that
declaration and is excluded from decoding, so when the declaration directly
follows the content (`body.length = ⌈count/10⌉` lines) the values of the
table's last content line are absent from the decoded output. -/
theorem parse_fixed_width_table_excludes_end (c₁ c₂ : Nat) (body tail : List Line)
    (hbody : ∀ l ∈ body, isTableLine l = false)
    (htail : ∀ l ∈ tail, isTableLine l = false)
    (hb : body ≠ []) (hlen : body.length = (c₁ + 9) / 10) :
    identify_tables (flowDeclLine c₁ :: (body ++ stageDeclLine c₂ :: tail)) =
      some [(str "Flow Hydrograph=", 1, body.length),
            (str "Stage Hydrograph=", body.length + 2,
             body.length + 2 + (c₂ + 9) / 10)] ∧
    (∀ x, parse_fixed_width_table
        ((flowDeclLine c₁ :: (body ++ stageDeclLine c₂ :: tail)).set body.length x)
        1 body.length =
      parse_fixed_width_table (flowDeclLine c₁ :: (body ++ stageDeclLine c₂ :: tail))
        1 body.length) ∧
    parse_fixed_width_table (flowDeclLine c₁ :: (body ++ stageDeclLine c₂ :: tail))
        1 body.length ++ parseLine (body.getLast hb) =
      body.flatMap parseLine := by
  refine ⟨?_, ?_, ?_⟩
  · rw [identify_tables]
    rw [identGo_decl _ _ _ _ _ (isTableLine_flowDecl c₁) _ _ (parseDecl_flowDecl c₁)]
    rw [show (0 : Nat) + 1 = 1 from rfl]
    rw [identGo_skip body (stageDeclLine c₂ :: tail) 1 _ _ hbody]
    rw [identGo_decl _ _ _ _ _ (isTableLine_stageDecl c₂) _ _ (parseDecl_stageDecl c₂)]
    rw [identGo_skip_end tail _ _ _ htail]
    have e1 : 1 + body.length - 1 = body.length := by omega
    have e2 : 1 + body.length + 1 = body.length + 2 := by omega
    simp only [e1, e2]
    rfl
  · intro x
    rw [parse_fixed_width_table, parse_fixed_width_table, take_set_eq]
  · obtain ⟨bl, hbl⟩ : ∃ bl, body.length = bl + 1 := by
      refine ⟨body.length - 1, ?_⟩
      have := List.length_pos.2 hb
      omega
    have htake : ((flowDeclLine c₁ :: (body ++ stageDeclLine c₂ :: tail)).take
        body.length).drop 1 = body.dropLast := by
      rw [hbl, List.take_succ_cons, List.drop_one, List.tail_cons]
      rw [List.take_append_of_le_length (by omega)]
      rw [List.dropLast_eq_take]
      congr 1
      omega
    rw [parse_fixed_width_table, htake]
    conv_rhs => rw [← List.dropLast_append_getLast hb]
    rw [List.flatMap_append]
    simp

theorem takeWhile_all (p : Char → Bool) (l : Line) (h : ∀ c ∈ l, p c = true) :
    l.takeWhile p = l :=
  List.takeWhile_eq_self_iff.2 h

theorem parseUnsigned_decRepr (n : Nat) : parseUnsigned (decRepr n) = some (n : ℚ) := by
  have ht : (decRepr n).takeWhile Char.isDigit = decRepr n :=
    takeWhile_all _ _ (decRepr_all_digit n)
  have hd : (decRepr n).dropWhile Char.isDigit = [] :=
    List.dropWhile_eq_nil_iff.2 (decRepr_all_digit n)
  rw [parseUnsigned]
  simp only [ht, hd]
  rw [if_neg (by simp [decRepr_ne_nil n])]
  rw [digitsVal_decRepr]

theorem parseDecimal_cons (c : Char) (rest : Line) :
    parseDecimal (c :: rest) =
      if c = '-' then (parseUnsigned rest).map Neg.neg
      else if c = '+' then parseUnsigned rest
      else parseUnsigned (c :: rest) := rfl

theorem parseDecimal_decRepr (n : Nat) : parseDecimal (decRepr n) = some (n : ℚ) := by
  rcases hd : decRepr n with _ | ⟨d, t⟩
  · exact absurd hd (decRepr_ne_nil n)
  · have hdig : d.isDigit = true := decRepr_all_digit n d (by rw [hd]; exact List.mem_cons_self ..)
    have h1 : d ≠ '-' := by rintro rfl; exact absurd hdig (by decide)
    have h2 : d ≠ '+' := by rintro rfl; exact absurd hdig (by decide)
    rw [parseDecimal_cons, if_neg h1, if_neg h2, ← hd, parseUnsigned_decRepr]

theorem parseDecimal_intRepr (k : ℤ) : parseDecimal (intRepr k) = some (k : ℚ) := by
  rw [intRepr]
  split
  · next hneg =>
    rcases hd : decRepr k.natAbs with _ | ⟨d, t⟩
    · exact absurd hd (decRepr_ne_nil _)
    · rw [parseDecimal_cons, if_pos rfl, ← hd, parseUnsigned_decRepr]
      have : ((k.natAbs : ℕ) : ℚ) = -(k : ℚ) := by
        rw [Int.cast_natAbs]
        push_cast
        rw [abs_of_neg (by exact_mod_cast hneg)]
      simp [this]
  · next hpos =>
    rw [parseDecimal_decRepr]
    have hk : 0 ≤ k := by omega
    have : ((k.toNat : ℕ) : ℚ) = (k : ℚ) := by
      have h2 : ((k.toNat : ℤ) : ℚ) = (k : ℚ) := by
        rw [Int.toNat_of_nonneg hk]
      push_cast at h2
      exact h2
    rw [this]

theorem intRepr_ne_nil (k : ℤ) : intRepr k ≠ [] := by
  rw [intRepr]
  split
  · simp
  · exact decRepr_ne_nil _

theorem intRepr_headD_not_ws (k : ℤ) : isWS ((intRepr k).headD ' ') = false := by
  rw [intRepr]
  split
  · show isWS '-' = false
    decide
  · exact decRepr_headD_not_ws _

theorem intRepr_getLast_not_ws (k : ℤ) (h : intRepr k ≠ []) :
    isWS ((intRepr k).getLast h) = false := by
  revert h
  rw [intRepr]
  split
  · intro h
    rw [List.getLast_cons (decRepr_ne_nil _)]
    exact decRepr_getLast_not_ws _ _
  · intro h
    exact decRepr_getLast_not_ws _ _

theorem trimChars_field (m : Nat) (k : ℤ) :
    trimChars (List.replicate m ' ' ++ intRepr k) = intRepr k := by
  have hshape : List.replicate m ' ' ++ intRepr k =
      List.replicate m ' ' ++ intRepr k ++ [] := by simp
  rw [hshape]
  exact trimChars_exact (List.replicate m ' ') (intRepr k) []
    (fun x hx => by rw [List.eq_of_mem_replicate hx]; decide) (by simp)
    (Or.inl (intRepr_headD_not_ws k)) (fun h => intRepr_getLast_not_ws k h)

theorem formatInt8_length (k : ℤ) (h : (intRepr k).length ≤ 8) :
    (formatInt8 k).length = 8 := by
  rw [formatInt8]
  simp only [List.length_append, List.length_replicate]
  omega

theorem trimChars_formatInt8 (k : ℤ) : trimChars (formatInt8 k) = intRepr k := by
  rw [formatInt8]
  exact trimChars_field _ k

theorem chunk8_nil : chunk8 [] = [] := by
  rw [chunk8]
  simp

theorem chunk8_block (f rest : Line) (hf : f.length = 8) :
    chunk8 (f ++ rest) = f :: chunk8 rest := by
  have hne : f ++ rest ≠ [] := by
    intro h0
    rcases List.append_eq_nil.1 h0 with ⟨h1, _⟩
    rw [h1] at hf
    simp at hf
  rw [chunk8, dif_neg hne]
  congr 1
  · rw [← hf]
    exact List.take_left f rest
  · congr 1
    rw [← hf]
    exact List.drop_left f rest

theorem parseLine_newline : parseLine ['\n'] = [] := by
  have h1 : chunk8 ['\n'] = [['\n']] := by
    rw [chunk8, dif_neg (by simp)]
    simp [chunk8_nil]
  rw [parseLine, h1]
  decide

theorem rowLine_cons (v : ℤ) (g : List ℤ) :
    rowLine (v :: g) = formatInt8 v ++ rowLine g := by
  rw [rowLine, rowLine]
  simp

theorem parseLine_rowLine (g : List ℤ) (hw : ∀ k ∈ g, (intRepr k).length ≤ 8) :
    parseLine (rowLine g) = g.map (fun k : ℤ => (k : ℚ)) := by
  induction g with
  | nil =>
    have h0 : rowLine [] = ['\n'] := rfl
    rw [h0, parseLine_newline]
    rfl
  | cons v g' ih =>
    have hv8 : (formatInt8 v).length = 8 :=
      formatInt8_length v (hw v (List.mem_cons_self ..))
    rw [rowLine_cons, parseLine, chunk8_block _ _ hv8]
    rw [List.filterMap_cons]
    have hfield : (let t := trimChars (formatInt8 v);
        if t = [] then none else parseDecimal t) = some ((v : ℚ)) := by
      simp only [trimChars_formatInt8]
      rw [if_neg (intRepr_ne_nil v), parseDecimal_intRepr]
    rw [hfield]
    have := ih (fun k hk => hw k (List.mem_cons_of_mem v hk))
    rw [parseLine] at this
    rw [this]
    rfl

theorem group10_parse (vals : List ℤ) (hw : ∀ k ∈ vals, (intRepr k).length ≤ 8) :
    ((group10 vals).map rowLine).flatMap parseLine = vals.map (fun k : ℤ => (k : ℚ)) := by
  induction vals using group10.induct with
  | case1 => simp [group10]
  | case2 vals hne ih =>
    rw [group10, dif_neg hne]
    simp only [List.map_cons, List.flatMap_cons]
    rw [parseLine_rowLine (vals.take 10) (fun k hk => hw k (List.mem_of_mem_take hk))]
    rw [ih (fun k hk => hw k (List.mem_of_mem_drop hk))]
    conv_rhs => rw [← List.take_append_drop 10 vals]
    rw [List.map_append]

theorem group10_length (vals : List ℤ) :
    (group10 vals).length = (vals.length + 9) / 10 := by
  induction vals using group10.induct with
  | case1 => simp [group10]
  | case2 vals hne ih =>
    rw [group10, dif_neg hne]
    simp only [List.length_cons]
    rw [ih]
    simp only [List.length_drop]
    have : vals.length ≠ 0 := fun h0 => hne (List.eq_nil_of_length_eq_zero h0)
    omega

theorem roundHalfEven_intCast (k : ℤ) : roundHalfEven ((k : ℚ)) = k := by
  rw [roundHalfEven]
  simp only [Int.floor_intCast]
  rw [if_pos]
  rw [sub_self]
  norm_num

theorem scaleValues_one (ks : List ℤ) :
    scaleValues (ks.map (fun k : ℤ => (k : ℚ))) 1 = ks := by
  rw [scaleValues, List.map_map]
  have h : ∀ k ∈ ks, (fun v => roundHalfEven (v * 1)) ((fun k : ℤ => (k : ℚ)) k) = k := by
    intro k _
    simp only [Function.comp]
    rw [mul_one, roundHalfEven_intCast]
  calc ks.map ((fun v => roundHalfEven (v * 1)) ∘ (fun k : ℤ => (k : ℚ)))
      = ks.map id := List.map_congr_left (fun k hk => h k hk)
    _ = ks := List.map_id ks

/-- C2: byte-for-byte round trip of a 23-value table.  With the 3 content
lines being the canonical fixed-width encoding of 23 integer values (each
8-character field holding the right-justified decimal representation),
`parse_fixed_width_table` over the table's 3-line extent recovers exactly the
23 values, the identity transform (scale factor 1) maps them back to the same
integers, and `write_table_to_file` reproduces the entire file — content
lines and all surrounding lines — byte for byte. -/
theorem table_round_trip (pre post : List Line) (ks : List ℤ)
    (hlen : ks.length = 23) (hw : ∀ k ∈ ks, (intRepr k).length ≤ 8) :
    ((group10 ks).map rowLine).length = 3 ∧
    parse_fixed_width_table (pre ++ (group10 ks).map rowLine ++ post)
        pre.length (pre.length + 3) = ks.map (fun k : ℤ => (k : ℚ)) ∧
    write_table_to_file (pre ++ (group10 ks).map rowLine ++ post)
        (str "Flow Hydrograph=")
        (scaleValues (parse_fixed_width_table
          (pre ++ (group10 ks).map rowLine ++ post) pre.length (pre.length + 3)) 1)
        pre.length =
      pre ++ (group10 ks).map rowLine ++ post := by
  have hrows : ((group10 ks).map rowLine).length = 3 := by
    rw [List.length_map, group10_length, hlen]
  have hparse : parse_fixed_width_table (pre ++ (group10 ks).map rowLine ++ post)
      pre.length (pre.length + 3) = ks.map (fun k : ℤ => (k : ℚ)) := by
    rw [parse_fixed_width_table]
    have h1 : (pre ++ (group10 ks).map rowLine ++ post).take (pre.length + 3) =
        pre ++ ((group10 ks).map rowLine ++ post).take 3 := by
      rw [List.append_assoc, List.take_append]
    rw [h1, List.drop_left]
    rw [List.take_append_of_le_length (by omega)]
    rw [← hrows, List.take_length]
    exact group10_parse ks hw
  refine ⟨hrows, hparse, ?_⟩
  rw [hparse, scaleValues_one]
  simp only [write_table_to_file]
  have ht : (pre ++ (group10 ks).map rowLine ++ post).take pre.length = pre := by
    rw [List.append_assoc]
    exact List.take_left ..
  have hd : (pre ++ (group10 ks).map rowLine ++ post).drop
      (pre.length + ((group10 ks).map rowLine).length) = post := by
    rw [List.append_assoc, ← List.drop_drop, List.drop_left, List.drop_left]
  rw [ht, hd]

/-- Witness for C2 at 23 zero values with empty surrounding lines. -/
theorem table_round_trip_witness :
    (((group10 (List.replicate 23 (0 : ℤ))).map rowLine).length = 3) ∧
    write_table_to_file
        ([] ++ (group10 (List.replicate 23 (0 : ℤ))).map rowLine ++ [])
        (str "Flow Hydrograph=")
        (scaleValues (parse_fixed_width_table
          ([] ++ (group10 (List.replicate 23 (0 : ℤ))).map rowLine ++ [])
          (List.length ([] : List Line)) (List.length ([] : List Line) + 3)) 1)
        (List.length ([] : List Line)) =
      [] ++ (group10 (List.replicate 23 (0 : ℤ))).map rowLine ++ [] := by
  obtain ⟨h1, _, h3⟩ := table_round_trip [] [] (List.replicate 23 (0 : ℤ))
    (by simp)
    (by
      intro k hk
      rw [List.eq_of_mem_replicate hk]
      have h0 : intRepr 0 = ['0'] := by
        rw [intRepr, if_neg (by norm_num), show (0 : ℤ).toNat = 0 from rfl,
          decRepr, dif_pos (by norm_num)]
        decide
      rw [h0]
      norm_num)
  exact ⟨h1, h3⟩

/-- Witness for C9: a 23-value table whose 3 content lines are directly
followed by the next declaration; decoding its reported range then adding the
last content line's values gives the full content. -/
theorem parse_fixed_width_table_excludes_end_witness :
    parse_fixed_width_table (flowDeclLine 23 ::
        ([str "       1\n", str "       2\n", str "       3\n"] ++
          stageDeclLine 5 :: [])) 1 3 ++
      parseLine (str "       3\n") =
    [str "       1\n", str "       2\n", str "       3\n"].flatMap parseLine := by
  have h := parse_fixed_width_table_excludes_end 23 5
    [str "       1\n", str "       2\n", str "       3\n"] []
    (by decide) (by decide) (by decide) (by decide)
  exact h.2.2

theorem ciPre_append_right (k : Line) : ∀ a t : Line, ciPre k a = true →
    ciPre k (a ++ t) = true := by
  induction k with
  | nil => intro a t _; rfl
  | cons k0 ks ih =>
    intro a t h
    cases a with
    | nil => exact absurd h (by simp [ciPre])
    | cons a0 as =>
      have hunf : ∀ cs : Line, ciPre (k0 :: ks) (a0 :: cs) =
          ((k0.toLower == a0.toLower) && ciPre ks cs) := fun cs => rfl
      rw [hunf] at h
      rw [List.cons_append, hunf]
      rw [Bool.and_eq_true] at h ⊢
      exact ⟨h.1, ih as t h.2⟩

theorem pad2_ne_nil (n : Nat) : pad2 n ≠ [] := by
  rw [pad2]
  split
  · simp
  · exact decRepr_ne_nil n

theorem pad2_all_digit (n : Nat) : ∀ c ∈ pad2 n, c.isDigit = true := by
  rw [pad2]
  split
  · intro c hc
    rcases List.mem_cons.1 hc with rfl | hc
    · decide
    · exact decRepr_all_digit n c hc
  · exact decRepr_all_digit n

theorem digitsVal_cons_zero (l : Line) : digitsVal ('0' :: l) = digitsVal l := by
  rw [digitsVal, digitsVal, List.foldl_cons]
  congr 1

theorem digitsVal_pad2 (n : Nat) : digitsVal (pad2 n) = n := by
  rw [pad2]
  split
  · rw [digitsVal_cons_zero, digitsVal_decRepr]
  · rw [digitsVal_decRepr]

theorem matchNumCI_mk (key body : Line) (n : Nat) (b0 : Char) (brest : Line)
    (hbody : body = b0 :: brest) (hh : isWS b0 = false)
    (hciself : ciPre key body = true) (hkb : key.length = body.length) :
    matchNumCI key (body ++ pad2 n ++ ['\n']) = some n := by
  have htrim : trimChars (body ++ pad2 n ++ ['\n']) = body ++ pad2 n := by
    have hshape : body ++ pad2 n ++ ['\n'] = [] ++ (body ++ pad2 n) ++ ['\n'] := by
      simp
    rw [hshape]
    refine trimChars_exact [] (body ++ pad2 n) ['\n'] (by simp) (by decide)
      (Or.inl ?_) ?_
    · rw [hbody]
      exact hh
    · intro h0
      have hne2 : body ++ pad2 n ≠ [] := h0
      have hgl : (body ++ pad2 n).getLast h0 = (pad2 n).getLast (pad2_ne_nil n) :=
        List.getLast_append_of_ne_nil (pad2_ne_nil n)
      rw [hgl]
      exact not_ws_of_digit _ (pad2_all_digit n _ (List.getLast_mem _))
  rw [matchNumCI]
  simp only [htrim]
  rw [if_pos (ciPre_append_right key body (pad2 n) hciself)]
  rw [hkb, List.drop_left]
  rw [takeWhile_all _ _ (pad2_all_digit n)]
  rw [if_neg (pad2_ne_nil n), digitsVal_pad2]

theorem matchNum_geomLine (n : Nat) : matchNumCI geomKeyCI (geomLine n) = some n := by
  have hshape : geomLine n = str "Geom File=g" ++ pad2 n ++ ['\n'] := rfl
  rw [hshape]
  exact matchNumCI_mk geomKeyCI (str "Geom File=g") n 'G' (str "eom File=g")
    (by decide) (by decide) (by decide) (by decide)

theorem matchNum_unstLine (n : Nat) : matchNumCI unstKeyCI (unstLine n) = some n := by
  have hshape : unstLine n = str "Unsteady File=u" ++ pad2 n ++ ['\n'] := rfl
  rw [hshape]
  exact matchNumCI_mk unstKeyCI (str "Unsteady File=u") n 'U' (str "nsteady File=u")
    (by decide) (by decide) (by decide) (by decide)

theorem firstIdxFrom_some (p : Line → Bool) (lines : List Line) :
    ∀ k i, firstIdxFrom p lines k = some i →
    k ≤ i ∧ ∃ pre l post, lines = pre ++ l :: post ∧ pre.length + k = i ∧
      p l = true ∧ ∀ x ∈ pre, p x = false := by
  induction lines with
  | nil => intro k i h; simp [firstIdxFrom] at h
  | cons a rest ih =>
    intro k i h
    rw [firstIdxFrom] at h
    by_cases hp : p a
    · rw [if_pos hp] at h
      obtain rfl := Option.some.inj h
      exact ⟨le_refl _, [], a, rest, rfl, by simp, hp, by simp⟩
    · rw [if_neg hp] at h
      obtain ⟨hk, pre, l, post, hdec, hlen, hl, hpre⟩ := ih (k + 1) i h
      refine ⟨by omega, a :: pre, l, post, by rw [hdec]; rfl, ?_, hl, ?_⟩
      · simp only [List.length_cons]
        omega
      · intro x hx
        rcases List.mem_cons.1 hx with rfl | hx
        · simpa using hp
        · exact hpre x hx

theorem lastIdxFrom_none (p : Line → Bool) (lines : List Line) :
    ∀ k, lastIdxFrom p lines k = none → ∀ x ∈ lines, p x = false := by
  induction lines with
  | nil => intro k _ x hx; simp at hx
  | cons a rest ih =>
    intro k h x hx
    rw [lastIdxFrom] at h
    rcases hrec : lastIdxFrom p rest (k + 1) with _ | j2
    · rw [hrec] at h
      by_cases hp : p a
      · rw [if_pos hp] at h
        exact absurd h (by simp)
      · rcases List.mem_cons.1 hx with rfl | hx2
        · simpa using hp
        · exact ih (k + 1) hrec x hx2
    · rw [hrec] at h
      exact absurd h (by simp)

theorem lastIdxFrom_some (p : Line → Bool) (lines : List Line) :
    ∀ k j, lastIdxFrom p lines k = some j →
    k ≤ j ∧ ∃ pre l post, lines = pre ++ l :: post ∧ pre.length + k = j ∧
      p l = true ∧ ∀ x ∈ post, p x = false := by
  induction lines with
  | nil => intro k j h; simp [lastIdxFrom] at h
  | cons a rest ih =>
    intro k j h
    rw [lastIdxFrom] at h
    rcases hrec : lastIdxFrom p rest (k + 1) with _ | j2
    · rw [hrec] at h
      by_cases hp : p a
      · rw [if_pos hp] at h
        obtain rfl := Option.some.inj h
        exact ⟨le_refl _, [], a, rest, rfl, by simp, hp,
          lastIdxFrom_none p rest (k + 1) hrec⟩
      · rw [if_neg hp] at h
        exact absurd h (by simp)
    · rw [hrec] at h
      obtain rfl := Option.some.inj h
      obtain ⟨hk, pre, l, post, hdec, hlen, hl, hpost⟩ := ih (k + 1) j2 hrec
      refine ⟨by omega, a :: pre, l, post, by rw [hdec]; rfl, ?_, hl, hpost⟩
      simp only [List.length_cons]
      omega

theorem filterMap_eq_nil_of_none (f : Line → Option Nat) (l : List Line)
    (h : ∀ x ∈ l, f x = none) : l.filterMap f = [] := by
  induction l with
  | nil => rfl
  | cons a rest ih =>
    rw [List.filterMap_cons, h a (List.mem_cons_self ..)]
    exact ih (fun x hx => h x (List.mem_cons_of_mem a hx))

theorem geomNext_spec_sorted (lines : List Line)
    (hs : (geomNumbersOf lines).Sorted (· < ·))
    (hpos : ∀ m ∈ geomNumbersOf lines, 1 ≤ m) :
    1 ≤ geomNext lines ∧ geomNext lines ∉ geomNumbersOf lines := by
  by_cases he : geomNumbersOf lines = []
  · have hg : geomNext lines = 1 := by simp [geomNext, he]
    rw [hg, he]
    exact ⟨le_refl 1, by simp⟩
  · have hsorteq : List.insertionSort (· ≤ ·) (geomNumbersOf lines) =
        geomNumbersOf lines := (hs.le_of_lt).insertionSort_eq
    have hg : geomNext lines = scanNext (geomNumbersOf lines) 1 := by
      simp [geomNext, he, hsorteq]
    obtain ⟨h1, h2, _⟩ := scanNext_spec (geomNumbersOf lines) 1 hs hpos
    rw [hg]
    exact ⟨h1, h2⟩

theorem copy_geom_insert_sorted (lines : List Line) (i : Nat)
    (hgs : (geomNumbersOf lines).Sorted (· < ·))
    (hgpos : ∀ m ∈ geomNumbersOf lines, 1 ≤ m)
    (hi : geomInsertIdx lines (geomNext lines) = some i) :
    (copy_geometry_update lines).1 = pyInsert lines i (geomLine (geomNext lines)) ∧
    (geomNumbersOf (pyInsert lines i (geomLine (geomNext lines)))).Sorted (· < ·) := by
  have hres : (copy_geometry_update lines).1 =
      pyInsert lines i (geomLine (geomNext lines)) := by
    simp only [copy_geometry_update]
    rw [hi]
  refine ⟨hres, ?_⟩
  obtain ⟨-, pre, l, post, hdec, hlen, hl, hpre⟩ :=
    firstIdxFrom_some _ lines 0 i (by exact hi)
  rw [Nat.add_zero] at hlen
  obtain ⟨m₀, hm₀, hnm₀⟩ : ∃ m₀, matchNumCI geomKeyCI l = some m₀ ∧
      geomNext lines ≤ m₀ := by
    rcases hm : matchNumCI geomKeyCI l with _ | m
    · rw [hm] at hl
      simp at hl
    · rw [hm] at hl
      exact ⟨m, rfl, of_decide_eq_true hl⟩
  have hpy : pyInsert lines i (geomLine (geomNext lines)) =
      pre ++ geomLine (geomNext lines) :: l :: post := by
    rw [pyInsert, hdec, ← hlen, List.take_left, List.drop_left]
  have hnums0 : geomNumbersOf lines =
      pre.filterMap (matchNumCI geomKeyCI) ++ m₀ :: post.filterMap (matchNumCI geomKeyCI) := by
    rw [geomNumbersOf, hdec, List.filterMap_append, List.filterMap_cons, hm₀]
  have hnums1 : geomNumbersOf (pre ++ geomLine (geomNext lines) :: l :: post) =
      pre.filterMap (matchNumCI geomKeyCI) ++ geomNext lines :: m₀ ::
        post.filterMap (matchNumCI geomKeyCI) := by
    rw [geomNumbersOf, List.filterMap_append, List.filterMap_cons, matchNum_geomLine,
      List.filterMap_cons, hm₀]
  have hprelt : ∀ v ∈ pre.filterMap (matchNumCI geomKeyCI), v < geomNext lines := by
    intro v hv
    obtain ⟨x, hx, hxv⟩ := List.mem_filterMap.1 hv
    have hpx := hpre x hx
    rw [hxv] at hpx
    have : ¬(geomNext lines ≤ v) := of_decide_eq_false hpx
    omega
  have hnotmem := (geomNext_spec_sorted lines hgs hgpos).2
  have hne : geomNext lines ≠ m₀ := by
    intro he
    apply hnotmem
    rw [hnums0, he]
    exact List.mem_append.2 (Or.inr (List.mem_cons_self ..))
  have hlt : geomNext lines < m₀ := by omega
  have hs2 : List.Pairwise (· < ·)
      (pre.filterMap (matchNumCI geomKeyCI) ++ m₀ ::
        post.filterMap (matchNumCI geomKeyCI)) := by
    rw [← hnums0]
    exact hgs
  rw [List.pairwise_append] at hs2
  obtain ⟨hA, hB, hcross⟩ := hs2
  rw [hpy, hnums1]
  show List.Pairwise (· < ·) _
  rw [List.pairwise_append]
  refine ⟨hA, ?_, ?_⟩
  · rw [List.pairwise_cons]
    refine ⟨?_, hB⟩
    intro b hb
    rcases List.mem_cons.1 hb with rfl | hb2
    · exact hlt
    · have := List.rel_of_sorted_cons hB b hb2
      omega
  · intro a ha b hb
    have halt := hprelt a ha
    rcases List.mem_cons.1 hb with rfl | hb2
    · exact halt
    · exact hcross a ha b hb2

theorem copy_unst_append_sorted (lines : List Line)
    (hus : (unstNumbersOf lines).Sorted (· < ·)) :
    unstInsertIdx lines (unstNext lines) = none ∧
    (∀ j, lastIdxFrom isUnstLine lines 0 = some j →
      (copy_unsteady_update lines).1 = pyInsert lines (j + 1) (unstLine (unstNext lines))) ∧
    (lastIdxFrom isUnstLine lines 0 = none →
      (copy_unsteady_update lines).1 = lines ++ [unstLine (unstNext lines)]) ∧
    (unstNumbersOf (copy_unsteady_update lines).1).Sorted (· < ·) := by
  have hbound : ∀ m ∈ unstNumbersOf lines, m < unstNext lines :=
    (append_next_spec (unstNumbersOf lines)).1
  have hnone : unstInsertIdx lines (unstNext lines) = none := by
    rcases hcase : unstInsertIdx lines (unstNext lines) with _ | i
    · rfl
    · exfalso
      obtain ⟨-, pre, l, post, hdec, -, hl, -⟩ :=
        firstIdxFrom_some _ lines 0 i (by exact hcase)
      obtain ⟨m, hm, hgt⟩ : ∃ m, matchNumCI unstKeyCI l = some m ∧
          unstNext lines < m := by
        rcases hm : matchNumCI unstKeyCI l with _ | m
        · rw [hm] at hl
          simp at hl
        · rw [hm] at hl
          exact ⟨m, rfl, of_decide_eq_true hl⟩
      have hmem : m ∈ unstNumbersOf lines := by
        rw [unstNumbersOf]
        exact List.mem_filterMap.2 ⟨l, by rw [hdec]; simp, hm⟩
      have := hbound m hmem
      omega
  refine ⟨hnone, ?_, ?_, ?_⟩
  · intro j hj
    simp only [copy_unsteady_update]
    rw [hnone, hj]
  · intro hj
    simp only [copy_unsteady_update]
    rw [hnone, hj]
  · rcases hj : lastIdxFrom isUnstLine lines 0 with _ | j
    · have hres : (copy_unsteady_update lines).1 = lines ++ [unstLine (unstNext lines)] := by
        simp only [copy_unsteady_update]
        rw [hnone, hj]
      have hnil : unstNumbersOf lines = [] := by
        rw [unstNumbersOf]
        refine filterMap_eq_nil_of_none _ _ ?_
        intro x hx
        have := lastIdxFrom_none isUnstLine lines 0 hj x hx
        rw [isUnstLine] at this
        rcases hmx : matchNumCI unstKeyCI x with _ | v
        · rfl
        · rw [hmx] at this
          simp at this
      have : unstNumbersOf (lines ++ [unstLine (unstNext lines)]) = [unstNext lines] := by
        rw [unstNumbersOf, List.filterMap_append]
        rw [show lines.filterMap (matchNumCI unstKeyCI) = unstNumbersOf lines from rfl]
        rw [hnil, List.filterMap_cons, matchNum_unstLine]
        rfl
      rw [hres, this]
      exact List.sorted_singleton _
    · obtain ⟨-, pre, l, post, hdec, hlen, hl, hpost⟩ :=
        lastIdxFrom_some _ lines 0 j (by exact hj)
      rw [Nat.add_zero] at hlen
      have hres : (copy_unsteady_update lines).1 =
          pyInsert lines (j + 1) (unstLine (unstNext lines)) := by
        simp only [copy_unsteady_update]
        rw [hnone, hj]
      obtain ⟨ml, hml⟩ : ∃ ml, matchNumCI unstKeyCI l = some ml := by
        rw [isUnstLine] at hl
        rcases hmx : matchNumCI unstKeyCI l with _ | v
        · rw [hmx] at hl
          simp at hl
        · exact ⟨v, rfl⟩
      have hpostnil : post.filterMap (matchNumCI unstKeyCI) = [] := by
        refine filterMap_eq_nil_of_none _ _ ?_
        intro x hx
        have := hpost x hx
        rw [isUnstLine] at this
        rcases hmx : matchNumCI unstKeyCI x with _ | v
        · rfl
        · rw [hmx] at this
          simp at this
      have hpy : pyInsert lines (j + 1) (unstLine (unstNext lines)) =
          pre ++ l :: unstLine (unstNext lines) :: post := by
        rw [pyInsert, hdec, ← hlen]
        rw [List.take_append, ← List.drop_drop, List.drop_left]
        simp
      have hnums0 : unstNumbersOf lines = pre.filterMap (matchNumCI unstKeyCI) ++ [ml] := by
        rw [unstNumbersOf, hdec, List.filterMap_append, List.filterMap_cons, hml, hpostnil]
      have hnums1 : unstNumbersOf (pre ++ l :: unstLine (unstNext lines) :: post) =
          pre.filterMap (matchNumCI unstKeyCI) ++ ml :: [unstNext lines] := by
        rw [unstNumbersOf, List.filterMap_append, List.filterMap_cons, hml,
          List.filterMap_cons, matchNum_unstLine, hpostnil]
      have hs2 : List.Pairwise (· < ·)
          (pre.filterMap (matchNumCI unstKeyCI) ++ [ml]) := by
        rw [← hnums0]
        exact hus
      rw [List.pairwise_append] at hs2
      obtain ⟨hA, -, hcross⟩ := hs2
      have hmllt : ml < unstNext lines := by
        refine hbound ml ?_
        rw [hnums0]
        exact List.mem_append.2 (Or.inr (List.mem_cons_self ..))
      rw [hres, hpy, hnums1]
      show List.Pairwise (· < ·) _
      rw [List.pairwise_append]
      refine ⟨hA, ?_, ?_⟩
      · rw [List.pairwise_cons]
        refine ⟨?_, List.sorted_singleton _⟩
        intro b hb
        rw [List.mem_singleton] at hb
        subst hb
        exact hmllt
      · intro a ha b hb
        have halt : a < ml := hcross a ha ml (List.mem_singleton.2 rfl)
        rcases List.mem_cons.1 hb with rfl | hb2
        · exact halt
        · rw [List.mem_singleton] at hb2
          subst hb2
          omega

/-- C3 (amended): ordered insertion of copy-from-template reference lines.
When a same-kind reference line with number `≥` the newly allocated number
exists, `copy_geometry_from_template` inserts the new line immediately
before the first such line, preserving strictly ascending order.
`copy_unsteady_from_template` never finds a strictly greater number (its
allocation is `max + 1`), so it appends immediately after the last
same-kind line, or at the end of the document when there is none, also
preserving ascending order.  Geometry, however, has no
after-last-same-kind fallback: whenever no same-kind line with a
greater-or-equal number exists — even if smaller same-kind lines do — it
inserts at `lastHeaderIndex + 2` when a header-key line exists, else at
the very top, which can break ascending order. -/
theorem copy_insertion_rule (lines : List Line)
    (hgs : (geomNumbersOf lines).Sorted (· < ·))
    (hgpos : ∀ m ∈ geomNumbersOf lines, 1 ≤ m)
    (hus : (unstNumbersOf lines).Sorted (· < ·)) :
    (∀ i, geomInsertIdx lines (geomNext lines) = some i →
      (copy_geometry_update lines).1 = pyInsert lines i (geomLine (geomNext lines)) ∧
      (geomNumbersOf (copy_geometry_update lines).1).Sorted (· < ·)) ∧
    (geomInsertIdx lines (geomNext lines) = none →
      (∀ h, lastHeaderIdx lines = some h →
        (copy_geometry_update lines).1 =
          pyInsert lines (h + 2) (geomLine (geomNext lines))) ∧
      (lastHeaderIdx lines = none →
        (copy_geometry_update lines).1 = pyInsert lines 0 (geomLine (geomNext lines)))) ∧
    unstInsertIdx lines (unstNext lines) = none ∧
    (∀ j, lastIdxFrom isUnstLine lines 0 = some j →
      (copy_unsteady_update lines).1 = pyInsert lines (j + 1) (unstLine (unstNext lines))) ∧
    (lastIdxFrom isUnstLine lines 0 = none →
      (copy_unsteady_update lines).1 = lines ++ [unstLine (unstNext lines)]) ∧
    (unstNumbersOf (copy_unsteady_update lines).1).Sorted (· < ·) := by
  obtain ⟨hc1, hc2, hc3, hc4⟩ := copy_unst_append_sorted lines hus
  refine ⟨?_, ?_, hc1, hc2, hc3, hc4⟩
  · intro i hi
    obtain ⟨ha1, ha2⟩ := copy_geom_insert_sorted lines i hgs hgpos hi
    refine ⟨ha1, ?_⟩
    rw [ha1]
    exact ha2
  · intro hnone
    constructor
    · intro h hh
      simp only [copy_geometry_update]
      rw [hnone, hh]
    · intro hh
      simp only [copy_geometry_update]
      rw [hnone, hh]

/-- Witness for C3 (amended): geometry `{1,3}` receives the new line with
number 2 between them; unsteady `{1,3}` receives number 4 appended after the
last unsteady line; both stay strictly ascending. -/
theorem copy_insertion_rule_witness :
    (copy_geometry_update [str "Geom File=g01\n", str "Geom File=g03\n",
        str "Unsteady File=u01\n", str "Unsteady File=u03\n"]).1 =
      pyInsert [str "Geom File=g01\n", str "Geom File=g03\n",
        str "Unsteady File=u01\n", str "Unsteady File=u03\n"] 1 (geomLine 2) ∧
    (geomNumbersOf (copy_geometry_update [str "Geom File=g01\n", str "Geom File=g03\n",
        str "Unsteady File=u01\n", str "Unsteady File=u03\n"]).1).Sorted (· < ·) ∧
    (copy_unsteady_update [str "Geom File=g01\n", str "Geom File=g03\n",
        str "Unsteady File=u01\n", str "Unsteady File=u03\n"]).1 =
      pyInsert [str "Geom File=g01\n", str "Geom File=g03\n",
        str "Unsteady File=u01\n", str "Unsteady File=u03\n"] 4 (unstLine 4) ∧
    (unstNumbersOf (copy_unsteady_update [str "Geom File=g01\n", str "Geom File=g03\n",
        str "Unsteady File=u01\n", str "Unsteady File=u03\n"]).1).Sorted (· < ·) := by
  obtain ⟨hA, -, -, hC2, -, hC4⟩ := copy_insertion_rule
    [str "Geom File=g01\n", str "Geom File=g03\n",
     str "Unsteady File=u01\n", str "Unsteady File=u03\n"]
    (by decide) (by decide) (by decide)
  obtain ⟨h1, h2⟩ := hA 1 (by decide)
  have hg : geomNext [str "Geom File=g01\n", str "Geom File=g03\n",
      str "Unsteady File=u01\n", str "Unsteady File=u03\n"] = 2 := by decide
  have hu : unstNext [str "Geom File=g01\n", str "Geom File=g03\n",
      str "Unsteady File=u01\n", str "Unsteady File=u03\n"] = 4 := by decide
  rw [hg] at h1
  have hj := hC2 3 (by decide)
  rw [hu] at hj
  exact ⟨h1, h2, hj, hC4⟩

/-- Counterexample for C3 as stated: with geometry lines `g01, g02` (no
numbering gap) after a header line, the allocated number is 3 and no
same-kind line with a greater number exists; the code does not append after
the last same-kind line but inserts at `lastHeaderIndex + 2`, landing the
new `g03` line before `g02` and breaking the strictly ascending order. -/
theorem copy_insertion_counterexample :
    copy_geometry_update [str "Proj Title=T\n", str "Geom File=g01\n",
        str "Geom File=g02\n"] =
      ([str "Proj Title=T\n", str "Geom File=g01\n", str "Geom File=g03\n",
        str "Geom File=g02\n"], 3) ∧
    geomNumbersOf [str "Proj Title=T\n", str "Geom File=g01\n",
        str "Geom File=g03\n", str "Geom File=g02\n"] = [1, 3, 2] ∧
    ¬ ([1, 3, 2] : List Nat).Sorted (· < ·) := by
  have hd3 : decRepr 3 = ['3'] := by
    rw [decRepr]
    decide
  have hgl : geomLine 3 = str "Geom File=g03\n" := by
    simp only [geomLine, pad2, hd3]
    decide
  refine ⟨?_, by decide, by decide⟩
  have hn : geomNext [str "Proj Title=T\n", str "Geom File=g01\n",
      str "Geom File=g02\n"] = 3 := by decide
  have hidx : geomInsertIdx [str "Proj Title=T\n", str "Geom File=g01\n",
      str "Geom File=g02\n"] 3 = none := by decide
  have hhdr : lastHeaderIdx [str "Proj Title=T\n", str "Geom File=g01\n",
      str "Geom File=g02\n"] = some 0 := by decide
  simp only [copy_geometry_update, hn, hidx, hhdr]
  rw [hgl]
  decide

theorem noPreB_cons (key : Line) (c : Char) (rest : Line)
    (h : noPreB key (c :: rest) = true) :
    key.isPrefixOf (c :: rest) = false ∧ noPreB key rest = true := by
  rw [noPreB, List.all_eq_true] at h
  constructor
  · have h0 := h 0 (List.mem_range.2 (by simp))
    simpa using h0
  · rw [noPreB, List.all_eq_true]
    intro i hi
    have hstep := h (i + 1) (List.mem_range.2 (by
      rw [List.length_cons]
      exact Nat.succ_lt_succ (List.mem_range.1 hi)))
    simpa using hstep

theorem subAll_nil (key rep : Line) : subAll key rep [] = [] := by
  rw [subAll]

theorem subAll_cons_no (key rep : Line) (c : Char) (rest : Line)
    (h : ¬(key.isPrefixOf (c :: rest) = true ∧
        ((c :: rest).drop key.length).takeWhile Char.isDigit ≠ [])) :
    subAll key rep (c :: rest) = c :: subAll key rep rest := by
  rw [subAll, dif_neg h]

theorem subAll_of_noPre (key rep cs : Line) (h : noPreB key cs = true) :
    subAll key rep cs = cs := by
  induction cs with
  | nil => exact subAll_nil key rep
  | cons c rest ih =>
    obtain ⟨h0, h1⟩ := noPreB_cons key c rest h
    rw [subAll_cons_no key rep c rest (by simp [h0]), ih h1]

theorem findKeyDigits_of_noPre (key cs : Line) (h : noPreB key cs = true) :
    findKeyDigits key cs = none := by
  induction cs with
  | nil => rfl
  | cons c rest ih =>
    obtain ⟨h0, h1⟩ := noPreB_cons key c rest h
    rw [findKeyDigits, if_neg (by simp [h0]), ih h1]

theorem subAll_key_digits (key rep ds : Line) (hk : key ≠ [])
    (hds : ds ≠ []) (hdig : ∀ ch ∈ ds, ch.isDigit = true) :
    subAll key rep (key ++ ds) = key ++ rep := by
  obtain ⟨k0, krest, rfl⟩ : ∃ k0 krest, key = k0 :: krest := by
    rcases key with _ | ⟨k0, krest⟩
    · exact absurd rfl hk
    · exact ⟨k0, krest, rfl⟩
  have htk : (((k0 :: krest) ++ ds).drop (k0 :: krest).length).takeWhile Char.isDigit
      = ds := by
    rw [List.drop_left, takeWhile_all _ _ hdig]
  have hdw : (((k0 :: krest) ++ ds).drop (k0 :: krest).length).dropWhile Char.isDigit
      = [] := by
    rw [List.drop_left]
    exact List.dropWhile_eq_nil_iff.2 hdig
  show subAll (k0 :: krest) rep (k0 :: (krest ++ ds)) = (k0 :: krest) ++ rep
  rw [subAll]
  rw [dif_pos ⟨isPrefixOf_append_self (k0 :: krest) ds, by
    show (((k0 :: krest) ++ ds).drop (k0 :: krest).length).takeWhile Char.isDigit ≠ []
    rw [htk]
    exact hds⟩]
  show (k0 :: krest) ++ rep ++ subAll (k0 :: krest) rep
      ((((k0 :: krest) ++ ds).drop (k0 :: krest).length).dropWhile Char.isDigit) = _
  rw [hdw, subAll_nil]
  simp

theorem findKeyDigits_key_digits (key ds : Line) (hk : key ≠ []) (hds : ds ≠ [])
    (hdig : ∀ ch ∈ ds, ch.isDigit = true) :
    findKeyDigits key (key ++ ds) = some (digitsVal ds) := by
  obtain ⟨k0, krest, rfl⟩ : ∃ k0 krest, key = k0 :: krest := by
    rcases key with _ | ⟨k0, krest⟩
    · exact absurd rfl hk
    · exact ⟨k0, krest, rfl⟩
  have htk : (((k0 :: krest) ++ ds).drop (k0 :: krest).length).takeWhile Char.isDigit
      = ds := by
    rw [List.drop_left, takeWhile_all _ _ hdig]
  show findKeyDigits (k0 :: krest) (k0 :: (krest ++ ds)) = some (digitsVal ds)
  rw [findKeyDigits]
  rw [if_pos ⟨isPrefixOf_append_self (k0 :: krest) ds, by
    show (((k0 :: krest) ++ ds).drop (k0 :: krest).length).takeWhile Char.isDigit ≠ []
    rw [htk]
    exact hds⟩]
  rw [show (k0 :: (krest ++ ds) : Line) = (k0 :: krest) ++ ds from rfl, htk]

theorem noPreB_of_goodPair (key base ds : Line)
    (hgp : goodPairB key base = true) (hdig : ∀ ch ∈ ds, ch.isDigit = true) :
    noPreB key (base ++ ds) = true := by
  simp only [goodPairB, Bool.and_eq_true] at hgp
  obtain ⟨⟨hkne, hk0⟩, hall⟩ := hgp
  obtain ⟨k0, krest, rfl⟩ : ∃ k0 krest, key = k0 :: krest := by
    rcases key with _ | ⟨k0, krest⟩
    · simp at hkne
    · exact ⟨k0, krest, rfl⟩
  have hk0d : k0.isDigit = false := by simpa using hk0
  rw [List.all_eq_true] at hall
  rw [noPreB, List.all_eq_true]
  intro i _
  rw [Bool.not_eq_true']
  by_contra hpre
  have hpre2 : (k0 :: krest).isPrefixOf ((base ++ ds).drop i) = true := by
    rcases hb : (k0 :: krest).isPrefixOf ((base ++ ds).drop i) with _ | _
    · exact absurd hb hpre
    · rfl
  rw [List.isPrefixOf_iff_prefix] at hpre2
  obtain ⟨t, ht⟩ := hpre2
  by_cases hib : i < base.length
  · have hj := hall i (List.mem_range.2 hib)
    rw [List.any_eq_true] at hj
    obtain ⟨j, hjmem, hjprop⟩ := hj
    have hjlt : j < (k0 :: krest).length := List.mem_range.1 hjmem
    have helem : ((k0 :: krest) : Line)[j]? = (base ++ ds)[i + j]? := by
      have h1 : ((k0 :: krest) ++ t)[j]? = ((k0 :: krest) : Line)[j]? := by
        rw [List.getElem?_append, if_pos hjlt]
      rw [← h1, ht, List.getElem?_drop]
    split at hjprop
    · next h2 =>
      have hne : (k0 :: krest).getD j ' ' ≠ base.getD (i + j) ' ' := by
        simpa using hjprop
      apply hne
      rw [List.getD_eq_getElem?_getD, List.getD_eq_getElem?_getD, helem,
        List.getElem?_append, if_pos h2]
    · next h2 =>
      have hnd : ((k0 :: krest).getD j ' ').isDigit = false := by
        simpa using hjprop
      have hjv : ((k0 :: krest) : Line)[j]? = some ((k0 :: krest).getD j ' ') := by
        rw [List.getD_eq_getElem?_getD, List.getElem?_eq_getElem hjlt]
        rfl
      have hds2 : (ds : Line)[i + j - base.length]? =
          some ((k0 :: krest).getD j ' ') := by
        rw [helem, List.getElem?_append, if_neg (by omega)] at hjv
        exact hjv
      have hmem := List.getElem?_mem hds2
      have hdd := hdig _ hmem
      rw [hdd] at hnd
      simp at hnd
  · have h0 : ((k0 :: krest) ++ t)[0]? = some k0 := by
      rw [List.getElem?_append, if_pos (by simp)]
      simp
    rw [ht, List.getElem?_drop, Nat.add_zero, List.getElem?_append,
      if_neg (by omega)] at h0
    have hmem := List.getElem?_mem h0
    have hdd := hdig _ hmem
    rw [hdd] at hk0d
    simp at hk0d

theorem findKeyDigitsLines_skip (key : Line) (blk rest : List Line)
    (h : ∀ l ∈ blk, findKeyDigits key l = none) :
    findKeyDigitsLines key (blk ++ rest) = findKeyDigitsLines key rest := by
  induction blk with
  | nil => rfl
  | cons x t ih =>
    show findKeyDigitsLines key (x :: (t ++ rest)) = _
    rw [findKeyDigitsLines, h x (List.mem_cons_self ..)]
    exact ih (fun y hy => h y (List.mem_cons_of_mem x hy))

theorem map_subAll_seven (key rep : Line) (pre mid1 mid2 post : List Line)
    (la lb lc la' lb' lc' : Line)
    (hpre : ∀ l ∈ pre, noPreB key l = true)
    (hmid1 : ∀ l ∈ mid1, noPreB key l = true)
    (hmid2 : ∀ l ∈ mid2, noPreB key l = true)
    (hpost : ∀ l ∈ post, noPreB key l = true)
    (ha : subAll key rep la = la') (hb : subAll key rep lb = lb')
    (hc : subAll key rep lc = lc') :
    (pre ++ la :: mid1 ++ lb :: mid2 ++ lc :: post).map (subAll key rep) =
      pre ++ la' :: mid1 ++ lb' :: mid2 ++ lc' :: post := by
  have hP : pre.map (subAll key rep) = pre :=
    calc pre.map (subAll key rep)
        = pre.map id := List.map_congr_left
          (fun l hl => subAll_of_noPre key rep l (hpre l hl))
      _ = pre := List.map_id pre
  have hM1 : mid1.map (subAll key rep) = mid1 :=
    calc mid1.map (subAll key rep)
        = mid1.map id := List.map_congr_left
          (fun l hl => subAll_of_noPre key rep l (hmid1 l hl))
      _ = mid1 := List.map_id mid1
  have hM2 : mid2.map (subAll key rep) = mid2 :=
    calc mid2.map (subAll key rep)
        = mid2.map id := List.map_congr_left
          (fun l hl => subAll_of_noPre key rep l (hmid2 l hl))
      _ = mid2 := List.map_id mid2
  have hP2 : post.map (subAll key rep) = post :=
    calc post.map (subAll key rep)
        = post.map id := List.map_congr_left
          (fun l hl => subAll_of_noPre key rep l (hpost l hl))
      _ = post := List.map_id post
  simp only [List.map_append, List.map_cons]
  rw [hP, hM1, hM2, hP2, ha, hb, hc]

/-- C6: the core-count rule of `set_num_cores`.  In a plan file holding the
three core-count lines (`UNET D2 Cores= a`, `UNET D1 Cores= b`,
`PS Cores= c`, with all other lines free of the three key patterns), the D2
(primary) count is always set to `n`; since the D2 value then reads exactly
`n`, the other two counts are forced to 1 when `n = 2` and set to `n`
otherwise — so `n = 2` yields (2, 1, 1) and any other `n` yields
(n, n, n). -/
theorem set_num_cores_rule (n a b c : Nat) (pre mid1 mid2 post : List Line)
    (hpre : ∀ l ∈ pre,
      noPreB d2Key l = true ∧ noPreB d1Key l = true ∧ noPreB psKey l = true)
    (hmid1 : ∀ l ∈ mid1,
      noPreB d2Key l = true ∧ noPreB d1Key l = true ∧ noPreB psKey l = true)
    (hmid2 : ∀ l ∈ mid2,
      noPreB d2Key l = true ∧ noPreB d1Key l = true ∧ noPreB psKey l = true)
    (hpost : ∀ l ∈ post,
      noPreB d2Key l = true ∧ noPreB d1Key l = true ∧ noPreB psKey l = true) :
    set_num_cores (pre ++ (d2Key ++ decRepr a) :: mid1 ++ (d1Key ++ decRepr b) ::
        mid2 ++ (psKey ++ decRepr c) :: post) n =
      pre ++ (d2Key ++ decRepr n) :: mid1 ++
        (d1Key ++ (if n = 2 then str "1" else decRepr n)) :: mid2 ++
        (psKey ++ (if n = 2 then str "1" else decRepr n)) :: post := by
  have hstep1 : (pre ++ (d2Key ++ decRepr a) :: mid1 ++ (d1Key ++ decRepr b) ::
      mid2 ++ (psKey ++ decRepr c) :: post).map (subAll d2Key (decRepr n)) =
      pre ++ (d2Key ++ decRepr n) :: mid1 ++ (d1Key ++ decRepr b) :: mid2 ++
      (psKey ++ decRepr c) :: post :=
    map_subAll_seven d2Key (decRepr n) pre mid1 mid2 post _ _ _ _ _ _
      (fun l hl => (hpre l hl).1) (fun l hl => (hmid1 l hl).1)
      (fun l hl => (hmid2 l hl).1) (fun l hl => (hpost l hl).1)
      (by
        have h1 := subAll_key_digits d2Key (decRepr n) (decRepr a) (by decide)
          (decRepr_ne_nil a) (decRepr_all_digit a)
        rw [h1])
      (subAll_of_noPre _ _ _ (noPreB_of_goodPair d2Key d1Key (decRepr b)
        (by decide) (decRepr_all_digit b)))
      (subAll_of_noPre _ _ _ (noPreB_of_goodPair d2Key psKey (decRepr c)
        (by decide) (decRepr_all_digit c)))
  have hfind : findKeyDigitsLines d2Key
      (pre ++ (d2Key ++ decRepr n) :: mid1 ++ (d1Key ++ decRepr b) :: mid2 ++
        (psKey ++ decRepr c) :: post) = some n := by
    rw [List.append_assoc, List.append_assoc]
    rw [findKeyDigitsLines_skip d2Key pre _
      (fun l hl => findKeyDigits_of_noPre d2Key l (hpre l hl).1)]
    rw [List.cons_append]
    rw [findKeyDigitsLines]
    rw [findKeyDigits_key_digits d2Key (decRepr n) (by decide)
      (decRepr_ne_nil n) (decRepr_all_digit n)]
    rw [digitsVal_decRepr]
  set rep : Line := if n = 2 then str "1" else decRepr n with hrep
  have hrepd : ∀ ch ∈ rep, ch.isDigit = true := by
    rw [hrep]
    split
    · intro ch hch
      rcases List.mem_singleton.1 (by simpa [str] using hch) with rfl
      decide
    · exact decRepr_all_digit n
  have hstep23 : ∀ repx : Line, (∀ ch ∈ repx, ch.isDigit = true) →
      (((pre ++ (d2Key ++ decRepr n) :: mid1 ++ (d1Key ++ decRepr b) :: mid2 ++
        (psKey ++ decRepr c) :: post).map (subAll d1Key repx)).map
          (subAll psKey repx)) =
      pre ++ (d2Key ++ decRepr n) :: mid1 ++ (d1Key ++ repx) :: mid2 ++
        (psKey ++ repx) :: post := by
    intro repx hrepx
    have hs2 : (pre ++ (d2Key ++ decRepr n) :: mid1 ++ (d1Key ++ decRepr b) ::
        mid2 ++ (psKey ++ decRepr c) :: post).map (subAll d1Key repx) =
        pre ++ (d2Key ++ decRepr n) :: mid1 ++ (d1Key ++ repx) :: mid2 ++
        (psKey ++ decRepr c) :: post :=
      map_subAll_seven d1Key repx pre mid1 mid2 post _ _ _ _ _ _
        (fun l hl => (hpre l hl).2.1) (fun l hl => (hmid1 l hl).2.1)
        (fun l hl => (hmid2 l hl).2.1) (fun l hl => (hpost l hl).2.1)
        (subAll_of_noPre _ _ _ (noPreB_of_goodPair d1Key d2Key (decRepr n)
          (by decide) (decRepr_all_digit n)))
        (subAll_key_digits d1Key repx (decRepr b) (by decide)
          (decRepr_ne_nil b) (decRepr_all_digit b))
        (subAll_of_noPre _ _ _ (noPreB_of_goodPair d1Key psKey (decRepr c)
          (by decide) (decRepr_all_digit c)))
    rw [hs2]
    exact map_subAll_seven psKey repx pre mid1 mid2 post _ _ _ _ _ _
      (fun l hl => (hpre l hl).2.2) (fun l hl => (hmid1 l hl).2.2)
      (fun l hl => (hmid2 l hl).2.2) (fun l hl => (hpost l hl).2.2)
      (subAll_of_noPre _ _ _ (noPreB_of_goodPair psKey d2Key (decRepr n)
        (by decide) (decRepr_all_digit n)))
      (subAll_of_noPre _ _ _ (noPreB_of_goodPair psKey d1Key repx
        (by decide) hrepx))
      (subAll_key_digits psKey repx (decRepr c) (by decide)
        (decRepr_ne_nil c) (decRepr_all_digit c))
  simp only [set_num_cores]
  rw [hstep1]
  simp only [hfind]
  by_cases hn2 : n = 2
  · rw [if_pos hn2]
    rw [hstep23 (str "1") (by decide)]
    rw [hrep, if_pos hn2]
  · rw [if_neg hn2]
    rw [hstep23 (decRepr n) (decRepr_all_digit n)]
    rw [hrep, if_neg hn2]

theorem set_num_cores_rule_witness :
    set_num_cores [d2Key ++ decRepr 6, d1Key ++ decRepr 4, psKey ++ decRepr 8] 2 =
      [d2Key ++ decRepr 2, d1Key ++ str "1", psKey ++ str "1"] := by
  have h := set_num_cores_rule 2 6 4 8 [] [] [] []
    (fun l hl => absurd hl (List.not_mem_nil l))
    (fun l hl => absurd hl (List.not_mem_nil l))
    (fun l hl => absurd hl (List.not_mem_nil l))
    (fun l hl => absurd hl (List.not_mem_nil l))
  simpa using h
